import Mathlib

/-!
yt-media-storage: packet encoder and command-line driver.

A shallow embedding of `src/encoder.cpp` (packet header construction and the
per-chunk encode pipeline) and of the chunk loop, the packet scan and the
argument handling of `src/main.cpp`, followed by theorems about them.

Conventions.
* A `std::byte` is a `Fin 256`; buffers are lists of bytes.
* `uint8_t`, `uint16_t`, `uint32_t`, `std::size_t` and `int` values are natural
  numbers (integers for `int`), reduced modulo `2^8`, `2^16`, `2^32`, `2^64`
  wherever the source stores or converts them.
* Multi-byte stores are the little-endian `memcpy` of the source.
* The constants of `configuration.h` and the functions of the other translation
  units (CRC, SHA-256, the erasure library, the cipher) are not part of the
  sources modelled here; they are parameters (`Config`, `Externals`).
-/

namespace YtMediaStorage

/-! ## Bytes and buffers -/

/-- One `std::byte`. -/
abbrev Byte := Fin 256

/-- Conversion of an integer value to a byte (`std::byte{value}`, truncating). -/
def toByte (v : Nat) : Byte := ⟨v % 256, Nat.mod_lt v (by decide)⟩

/-- Byte `i` of a buffer; `0` past the end. -/
def getByte (buffer : List Byte) (i : Nat) : Byte := buffer.getD i 0

/-- `writeByte` of the source: `buffer[offset] = std::byte{value}`. -/
def writeByte (buffer : List Byte) (offset value : Nat) : List Byte :=
  buffer.set offset (toByte value)

/-- `writeU16LE` of the source: `memcpy` of a `uint16_t` at `offset`. -/
def writeU16LE (buffer : List Byte) (offset value : Nat) : List Byte :=
  (buffer.set offset (toByte value)).set (offset + 1) (toByte (value / 256))

/-- `writeU32LE` of the source: `memcpy` of a `uint32_t` at `offset`. -/
def writeU32LE (buffer : List Byte) (offset value : Nat) : List Byte :=
  (((buffer.set offset (toByte value)).set (offset + 1) (toByte (value / 256))).set
    (offset + 2) (toByte (value / 65536))).set (offset + 3) (toByte (value / 16777216))

/-- The `memcpy(dest + offset, src, src.size())` of the source. -/
def writeBytes (buffer : List Byte) (offset : Nat) : List Byte → List Byte
  | [] => buffer
  | b :: rest => writeBytes (buffer.set offset b) (offset + 1) rest

/-- Little-endian `uint16_t` stored at `offset`. -/
def readU16LE (buffer : List Byte) (offset : Nat) : Nat :=
  (getByte buffer offset).val + 256 * (getByte buffer (offset + 1)).val

/-- Little-endian `uint32_t` stored at `offset` (the `memcpy` into a `uint32_t`). -/
def readU32LE (buffer : List Byte) (offset : Nat) : Nat :=
  (getByte buffer offset).val + 256 * (getByte buffer (offset + 1)).val
    + 65536 * (getByte buffer (offset + 2)).val + 16777216 * (getByte buffer (offset + 3)).val

/-! ## Configuration constants and external collaborators -/

/-- The constants of `configuration.h` used by the encoder and the driver. Their
values are not part of the modelled sources, so they are parameters. -/
structure Config where
  CHUNK_SIZE_BYTES : Nat
  SYMBOL_SIZE_BYTES : Nat
  INCLUDE_SOURCE : Bool
  HEADER_SIZE : Nat
  HEADER_SIZE_V2 : Nat
  MAGIC_ID : Nat
  VERSION_ID_V2 : Nat
  MAGIC_OFF : Nat
  VERSION_OFF : Nat
  FLAGS_OFF : Nat
  FILE_ID_OFF : Nat
  CHUNK_INDEX_OFF : Nat
  CHUNK_SIZE_OFF : Nat
  ORIGINAL_SIZE_OFF : Nat
  SYMBOL_SIZE_OFF : Nat
  K_OFF : Nat
  ESI_OFF : Nat
  PAYLOAD_LEN_OFF : Nat
  CRC_OFF_V2 : Nat
  CRC_SIZE : Nat
  /-- The value `std::ceil(static_cast<double>(n) * REPAIR_OVERHEAD)` for a source
  count `n`; the floating-point product is not evaluated in this development. -/
  repairCeil : Nat → Nat

/-- Modelled from the spec: the flag constant `None` (no bit set); the flag
enumeration is declared outside the modelled sources. -/
def None : Nat := 0

/-- Modelled from the spec: the flag constant `IsRepairSymbol (1)`; the flag
enumeration is declared outside the modelled sources. -/
def IsRepairSymbol : Nat := 1

/-- Modelled from the spec: the flag constant `LastChunk (2)`; the flag
enumeration is declared outside the modelled sources. -/
def LastChunk : Nat := 2

/-- Modelled from the spec: the flag constant `Encrypted (4)`; the flag
enumeration is declared outside the modelled sources. -/
def Encrypted : Nat := 4

/-- A 16-byte file identifier (`std::array<std::byte, 16>`). -/
abbrev FileId := { l : List Byte // l.length = 16 }

/-- The functions the encoder and the driver call but which live in other
translation units or libraries: the packet checksum, SHA-256, the wirehair
erasure library and the cipher. `Codec` is the library's opaque handle. -/
structure Externals (Codec : Type) where
  /-- `packet_crc32c(header, payload, crc_offset, crc_size)`. -/
  packet_crc32c : List Byte → List Byte → Nat → Nat → Nat
  sha256 : List Byte → List Byte
  /-- Whether `wirehair_init()` reports success. -/
  wirehair_init_ok : Bool
  /-- `wirehair_encoder_create(nullptr, message, messageBytes, blockBytes)`;
  `none` is the null handle. -/
  wirehair_encoder_create : List Byte → Nat → Nat → Option Codec
  /-- `wirehair_encode(codec, blockId, buffer, bufferBytes, &writeLen)`: from the
  contents of the buffer before the call to its contents after it and
  `writeLen`; `none` is a result other than `Wirehair_Success`. -/
  wirehair_encode : Codec → Nat → List Byte → Nat → Option (List Byte × Nat)
  /-- `derive_key(password, salt)`. -/
  derive_key : List Byte → FileId → List Byte
  /-- `encrypt_chunk(plain, key, file_id, chunk_index)`. -/
  encrypt_chunk : List Byte → List Byte → FileId → Nat → List Byte

/-! ## `encoder.cpp` -/

/-- `computeNumSourceSymbols`: `(dataSize + symbolSize - 1) / symbolSize` in
`std::size_t`, converted to `uint32_t`. -/
def computeNumSourceSymbols (dataSize symbolSize : Nat) : Nat :=
  let count := ((dataSize + symbolSize + (2 ^ 64 - 1)) % 2 ^ 64) / symbolSize
  count % 2 ^ 32

/-- `computeRepairCount(numSource, REPAIR_OVERHEAD)`: the ceiling of the
floating-point product, converted to `uint32_t`. -/
def computeRepairCount (cfg : Config) (numSource : Nat) : Nat :=
  cfg.repairCeil numSource % 2 ^ 32

/-- `buildFlags`: each `flags |= bit` is an or on `uint8_t`. -/
def buildFlags (blockId numSource : Nat) (isLastChunk encrypted : Bool) : Nat :=
  let flags := None
  let flags := if blockId > numSource then (flags ||| IsRepairSymbol) % 256 else flags
  let flags := if isLastChunk then (flags ||| LastChunk) % 256 else flags
  let flags := if encrypted then (flags ||| Encrypted) % 256 else flags
  flags

/-- A packet: its bytes. -/
structure Packet where
  bytes : List Byte
deriving DecidableEq, Repr

/-- `buildPacket`: the header bytes followed by the payload bytes. -/
def buildPacket (header payload : List Byte) : Packet :=
  { bytes := header ++ payload }

/-- The header of `create_packet_header` after every field is written and the
checksum field holds `0`, just before the checksum is computed. -/
def header_before_crc (cfg : Config) (id : FileId)
    (chunk_index chunk_size original_size symbol_size num_source block_id
      payload_length flags : Nat) : List Byte :=
  let buf : List Byte := List.replicate cfg.HEADER_SIZE_V2 0
  let buf := writeU32LE buf cfg.MAGIC_OFF cfg.MAGIC_ID
  let buf := writeByte buf cfg.VERSION_OFF cfg.VERSION_ID_V2
  let buf := writeByte buf cfg.FLAGS_OFF flags
  let buf := writeBytes buf cfg.FILE_ID_OFF id.val
  let buf := writeU32LE buf cfg.CHUNK_INDEX_OFF chunk_index
  let buf := writeU32LE buf cfg.CHUNK_SIZE_OFF chunk_size
  let buf := writeU32LE buf cfg.ORIGINAL_SIZE_OFF original_size
  let buf := writeU16LE buf cfg.SYMBOL_SIZE_OFF symbol_size
  let buf := writeU32LE buf cfg.K_OFF num_source
  let buf := writeU32LE buf cfg.ESI_OFF block_id
  let buf := writeU16LE buf cfg.PAYLOAD_LEN_OFF payload_length
  writeU32LE buf cfg.CRC_OFF_V2 0

/-- `Encoder::create_packet_header`. -/
def create_packet_header {Codec : Type} (cfg : Config) (ext : Externals Codec) (id : FileId)
    (chunk_index chunk_size original_size symbol_size num_source block_id
      payload_length flags : Nat) (payload : List Byte) : List Byte :=
  let header := header_before_crc cfg id chunk_index chunk_size original_size symbol_size
    num_source block_id payload_length flags
  let crc := ext.packet_crc32c header payload cfg.CRC_OFF_V2 cfg.CRC_SIZE
  writeU32LE header cfg.CRC_OFF_V2 crc

/-- `ChunkManifestEntry` as filled in by `encode_chunk`. -/
structure ChunkManifestEntry where
  chunk_index : Nat
  chunk_size : Nat
  original_size : Nat
  T : Nat
  N : Nat
  sha256 : List Byte
deriving DecidableEq, Repr

/-- The buffer `data_to_encode` of `encode_chunk`: the chunk itself, or the chunk
followed by zero bytes up to `min_size = SYMBOL_SIZE_BYTES * 2` when it is shorter. -/
def data_to_encode (cfg : Config) (chunk_data : List Byte) : List Byte :=
  let min_size := (cfg.SYMBOL_SIZE_BYTES * 2) % 2 ^ 64
  if chunk_data.length < min_size then
    chunk_data ++ List.replicate (min_size - chunk_data.length) 0
  else chunk_data

/-- The body of the block-id loop of `encode_chunk`, run `count` times from
`blockId` with the payload buffer `payload_buffer`; the packets pushed, in order. -/
def encode_blocks {Codec : Type} (cfg : Config) (ext : Externals Codec) (id : FileId)
    (codec : Codec) (chunk_index chunkSize original_size symbolSize numSource : Nat)
    (is_last_chunk encrypted : Bool) :
    Nat → Nat → List Byte → Except String (List Packet)
  | 0, _, _ => .ok []
  | count + 1, blockId, payload_buffer =>
    match ext.wirehair_encode codec blockId payload_buffer (cfg.SYMBOL_SIZE_BYTES % 2 ^ 32) with
    | none => .error "wirehair_encode() failed"
    | some (buffer, writeLen) =>
      let flags := buildFlags blockId numSource is_last_chunk encrypted
      let payloadLen := writeLen % 2 ^ 16
      let payload_span := buffer.take writeLen
      let header := create_packet_header cfg ext id chunk_index chunkSize original_size
        symbolSize numSource blockId payloadLen flags payload_span
      let packet := buildPacket header payload_span
      match encode_blocks cfg ext id codec chunk_index chunkSize original_size symbolSize
          numSource is_last_chunk encrypted count (blockId + 1) buffer with
      | .error e => .error e
      | .ok rest => .ok (packet :: rest)

/-- `Encoder::encode_chunk`. A thrown `std::runtime_error` is `.error`. The
block-id loop runs for `blockId = firstBlockId, ..., lastBlockId`; when
`lastBlockId` is `2^32 - 1` the `uint32_t` counter wraps to `0` and the loop
has no normal exit, which is reported as an error as well. -/
def encode_chunk {Codec : Type} (cfg : Config) (ext : Externals Codec) (id : FileId)
    (chunk_index : Nat) (chunk_data : List Byte) (is_last_chunk encrypted : Bool) :
    Except String (List Packet × ChunkManifestEntry) :=
  if ext.wirehair_init_ok = false then .error "wirehair_init failed"
  else if chunk_data.length > cfg.CHUNK_SIZE_BYTES then
    .error "chunkData larger than CHUNK_SIZE_BYTES"
  else
    let data := data_to_encode cfg chunk_data
    let chunkSize := data.length % 2 ^ 32
    let symbolSize := cfg.SYMBOL_SIZE_BYTES % 2 ^ 16
    let numSource := computeNumSourceSymbols data.length cfg.SYMBOL_SIZE_BYTES
    let manifest : ChunkManifestEntry :=
      { chunk_index := chunk_index
        chunk_size := chunkSize
        original_size := chunk_data.length % 2 ^ 32
        T := symbolSize
        N := numSource
        sha256 := ext.sha256 chunk_data }
    let msgSize := data.length % 2 ^ 32
    let symbolSizeU32 := cfg.SYMBOL_SIZE_BYTES % 2 ^ 32
    match ext.wirehair_encoder_create data msgSize symbolSizeU32 with
    | none => .error "wirehair_encoder_create() failed"
    | some codec =>
      let repairCount := computeRepairCount cfg numSource
      let firstBlockId := if cfg.INCLUDE_SOURCE then 1 else (numSource + 1) % 2 ^ 32
      let lastBlockId := (numSource + repairCount) % 2 ^ 32
      let payload_buffer : List Byte := List.replicate cfg.SYMBOL_SIZE_BYTES 0
      if firstBlockId ≤ lastBlockId ∧ lastBlockId = 2 ^ 32 - 1 then
        .error "block-id loop has no normal exit"
      else
        match encode_blocks cfg ext id codec chunk_index chunkSize manifest.original_size
            symbolSize numSource is_last_chunk encrypted
            (lastBlockId + 1 - firstBlockId) firstBlockId payload_buffer with
        | .error e => .error e
        | .ok packets => .ok (packets, manifest)

/-- The fields of the header are laid out in the order the source writes them,
none overlapping the next, and the checksum field ends inside the header. -/
def Config.LayoutOk (cfg : Config) : Prop :=
  cfg.MAGIC_OFF + 4 ≤ cfg.VERSION_OFF ∧ cfg.VERSION_OFF + 1 ≤ cfg.FLAGS_OFF ∧
  cfg.FLAGS_OFF + 1 ≤ cfg.FILE_ID_OFF ∧ cfg.FILE_ID_OFF + 16 ≤ cfg.CHUNK_INDEX_OFF ∧
  cfg.CHUNK_INDEX_OFF + 4 ≤ cfg.CHUNK_SIZE_OFF ∧
  cfg.CHUNK_SIZE_OFF + 4 ≤ cfg.ORIGINAL_SIZE_OFF ∧
  cfg.ORIGINAL_SIZE_OFF + 4 ≤ cfg.SYMBOL_SIZE_OFF ∧ cfg.SYMBOL_SIZE_OFF + 2 ≤ cfg.K_OFF ∧
  cfg.K_OFF + 4 ≤ cfg.ESI_OFF ∧ cfg.ESI_OFF + 4 ≤ cfg.PAYLOAD_LEN_OFF ∧
  cfg.PAYLOAD_LEN_OFF + 2 ≤ cfg.CRC_OFF_V2 ∧ cfg.CRC_OFF_V2 + 4 ≤ cfg.HEADER_SIZE_V2

instance (cfg : Config) : Decidable cfg.LayoutOk := by
  unfold Config.LayoutOk; infer_instance

/-- The symbol size is positive and fits the `uint16_t` header field, and the
largest chunk fits the `uint32_t` header fields. -/
def Config.SizesOk (cfg : Config) : Prop :=
  0 < cfg.SYMBOL_SIZE_BYTES ∧ cfg.SYMBOL_SIZE_BYTES < 2 ^ 16 ∧ cfg.CHUNK_SIZE_BYTES < 2 ^ 32

instance (cfg : Config) : Decidable cfg.SizesOk := by
  unfold Config.SizesOk; infer_instance

/-! ### The header fields of a packet, as a reader finds them -/

/-- The flags byte of a packet. -/
def Packet.flags (cfg : Config) (p : Packet) : Nat := (getByte p.bytes cfg.FLAGS_OFF).val

/-- The `chunk_index` field of a packet. -/
def Packet.chunk_index (cfg : Config) (p : Packet) : Nat := readU32LE p.bytes cfg.CHUNK_INDEX_OFF

/-- The `chunk_size` field of a packet. -/
def Packet.chunk_size (cfg : Config) (p : Packet) : Nat := readU32LE p.bytes cfg.CHUNK_SIZE_OFF

/-- The `original_size` field of a packet. -/
def Packet.original_size (cfg : Config) (p : Packet) : Nat :=
  readU32LE p.bytes cfg.ORIGINAL_SIZE_OFF

/-- The `symbol_size` field (`T`) of a packet. -/
def Packet.symbol_size (cfg : Config) (p : Packet) : Nat := readU16LE p.bytes cfg.SYMBOL_SIZE_OFF

/-- The source-symbol count field (`N`, stored at `K_OFF`) of a packet. -/
def Packet.num_source (cfg : Config) (p : Packet) : Nat := readU32LE p.bytes cfg.K_OFF

/-- The `block_id` field (stored at `ESI_OFF`) of a packet. -/
def Packet.block_id (cfg : Config) (p : Packet) : Nat := readU32LE p.bytes cfg.ESI_OFF

/-- The `payload_length` field of a packet. -/
def Packet.payload_length (cfg : Config) (p : Packet) : Nat :=
  readU16LE p.bytes cfg.PAYLOAD_LEN_OFF

/-- The checksum field of a packet. -/
def Packet.crc (cfg : Config) (p : Packet) : Nat := readU32LE p.bytes cfg.CRC_OFF_V2

/-- The header part of a packet: its first `HEADER_SIZE_V2` bytes. -/
def Packet.header (cfg : Config) (p : Packet) : List Byte := p.bytes.take cfg.HEADER_SIZE_V2

/-- The payload part of a packet: the bytes after the header. -/
def Packet.payload (cfg : Config) (p : Packet) : List Byte := p.bytes.drop cfg.HEADER_SIZE_V2

/-- The local `numSource` of `encode_chunk` for the chunk `chunk_data`. -/
def numSource (cfg : Config) (chunk_data : List Byte) : Nat :=
  computeNumSourceSymbols (data_to_encode cfg chunk_data).length cfg.SYMBOL_SIZE_BYTES

/-- The local `repairCount` of `encode_chunk` for the chunk `chunk_data`. -/
def repairCount (cfg : Config) (chunk_data : List Byte) : Nat :=
  computeRepairCount cfg (numSource cfg chunk_data)

/-- The local `firstBlockId` of `encode_chunk` for the chunk `chunk_data`. -/
def firstBlockId (cfg : Config) (chunk_data : List Byte) : Nat :=
  if cfg.INCLUDE_SOURCE then 1 else (numSource cfg chunk_data + 1) % 2 ^ 32

/-- The local `lastBlockId` of `encode_chunk` for the chunk `chunk_data`. -/
def lastBlockId (cfg : Config) (chunk_data : List Byte) : Nat :=
  (numSource cfg chunk_data + repairCount cfg chunk_data) % 2 ^ 32

/-- The erasure library succeeds: initialisation, encoder creation and every
`wirehair_encode` call report success. -/
def Externals.Succeeds {Codec : Type} (ext : Externals Codec) : Prop :=
  ext.wirehair_init_ok = true ∧
  (∀ message messageBytes blockBytes,
    (ext.wirehair_encoder_create message messageBytes blockBytes).isSome = true) ∧
  (∀ codec blockId buffer bufferBytes,
    (ext.wirehair_encode codec blockId buffer bufferBytes).isSome = true)

/-- The erasure library writes inside the buffer it is given: the buffer keeps its
size and `writeLen` is at most the `bufferBytes` passed. -/
def Externals.WritesWithinBuffer {Codec : Type} (ext : Externals Codec) : Prop :=
  ∀ codec blockId buffer bufferBytes out writeLen,
    ext.wirehair_encode codec blockId buffer bufferBytes = some (out, writeLen) →
      out.length = buffer.length ∧ writeLen ≤ bufferBytes

/-- The checksum routine returns a `uint32_t`. -/
def Externals.CrcIsU32 {Codec : Type} (ext : Externals Codec) : Prop :=
  ∀ header payload crc_offset crc_size,
    ext.packet_crc32c header payload crc_offset crc_size < 2 ^ 32

/-! ## `main.cpp` -/

/-- `make_file_id`: the bytes `0, 1, ..., 15`. -/
def make_file_id : FileId := ⟨(List.range 16).map toByte, by simp⟩

/-- `CRYPTO_KEY_BYTES` of `crypto.h`. -/
def CRYPTO_KEY_BYTES : Nat := 32

/-- `static_cast<int>(n)` of a `std::size_t`: the low 32 bits, read as a signed
two's-complement value. -/
def static_cast_int (n : Nat) : Int :=
  if n % 2 ^ 32 < 2 ^ 31 then ((n % 2 ^ 32 : Nat) : Int) else ((n % 2 ^ 32 : Nat) : Int) - 2 ^ 32

/-- Whether the chunk loop of `do_encode` runs its body for the index `i`: the
loop is `for (int i = 0; i < static_cast<int>(num_chunks); ++i)`. -/
def do_encode_runs (chunks : List (List Byte)) (i : Nat) : Prop :=
  (i : Int) < static_cast_int chunks.length

instance (chunks : List (List Byte)) (i : Nat) : Decidable (do_encode_runs chunks i) := by
  unfold do_encode_runs; infer_instance

/-- The flag `is_last` the chunk loop of `do_encode` computes for the index `i`:
`i == static_cast<int>(num_chunks) - 1`. -/
def do_encode_is_last (chunks : List (List Byte)) (i : Nat) : Bool :=
  decide ((i : Int) = static_cast_int chunks.length - 1)

/-- The body of the chunk loop of `do_encode` for the index `i`: the chunks
are those of `chunkFile`, the key is derived from the password when `encrypt`
is set (all zero otherwise), and the result is that of `encode_chunk`. The
iterations are independent of each other (`#pragma omp parallel for`). -/
def do_encode_chunk {Codec : Type} (cfg : Config) (ext : Externals Codec)
    (chunks : List (List Byte)) (encrypt : Bool) (password : List Byte) (i : Nat) :
    Except String (List Packet × ChunkManifestEntry) :=
  let file_id := make_file_id
  let key : List Byte :=
    if encrypt then ext.derive_key password file_id else List.replicate CRYPTO_KEY_BYTES 0
  let chunk_data := chunks.getD i []
  let data_to_encode :=
    if encrypt then ext.encrypt_chunk chunk_data key file_id (i % 2 ^ 32) else chunk_data
  let is_last := do_encode_is_last chunks i
  encode_chunk cfg ext file_id (i % 2 ^ 32) data_to_encode is_last encrypt

/-- The slot `all_chunk_packets[i]` after the chunk loop of `do_encode`: the
packets of `encode_chunk` when the loop ran for `i`, the empty vector the slot
was created with otherwise. -/
def all_chunk_packets {Codec : Type} (cfg : Config) (ext : Externals Codec)
    (chunks : List (List Byte)) (encrypt : Bool) (password : List Byte) (i : Nat) :
    Except String (List Packet) :=
  if do_encode_runs chunks i then
    match do_encode_chunk cfg ext chunks encrypt password i with
    | .error e => .error e
    | .ok (chunk_packets, _) => .ok chunk_packets
  else .ok []

/-- The variables the packet scan of `do_decode` maintains. -/
structure ScanState where
  total_extracted : Nat
  max_chunk_index : Nat
  found_last_chunk : Bool
  last_chunk_index : Nat
deriving DecidableEq, Repr

/-- The values the variables of `do_decode` are initialised with. -/
def ScanState.init : ScanState :=
  { total_extracted := 0, max_chunk_index := 0, found_last_chunk := false,
    last_chunk_index := 0 }

/-- One pass of the inner loop of `do_decode` over a packet blob, as far as the
variables above go (the blob is then handed to the decoder, whatever it holds).
The `std::size_t` counter `total_extracted` is incremented once per blob and is
kept as a natural number. -/
def scan_packet (cfg : Config) (st : ScanState) (pkt_data : List Byte) : ScanState :=
  let st := { st with total_extracted := st.total_extracted + 1 }
  if pkt_data.length ≥ cfg.HEADER_SIZE then
    let flags := (getByte pkt_data cfg.FLAGS_OFF).val
    let chunk_idx := readU32LE pkt_data cfg.CHUNK_INDEX_OFF
    let st := if chunk_idx > st.max_chunk_index then { st with max_chunk_index := chunk_idx } else st
    if flags &&& LastChunk ≠ 0 then
      { st with found_last_chunk := true, last_chunk_index := chunk_idx }
    else st
  else st

/-- The scan of `do_decode` over the frames the video decoder returned, each a
list of packet blobs (an empty frame changes nothing). -/
def scan_frames (cfg : Config) (frames : List (List (List Byte))) : ScanState :=
  frames.foldl (fun st frame_packets => frame_packets.foldl (scan_packet cfg) st) ScanState.init

/-- The value `do_decode` gives `expected_chunks` (`uint32_t`); `none` when it
returns before computing it because no packet was extracted. -/
def expected_chunks (cfg : Config) (frames : List (List (List Byte))) : Option Nat :=
  let st := scan_frames cfg frames
  if st.total_extracted = 0 then none
  else if st.found_last_chunk then some ((st.last_chunk_index + 1) % 2 ^ 32)
  else some ((st.max_chunk_index + 1) % 2 ^ 32)

/-! ### The quantities the spec derives `expected_chunks` from -/

/-- Whether a received blob is long enough to carry a header
(`pkt_data.size() >= HEADER_SIZE`). -/
def carries_header (cfg : Config) (pkt_data : List Byte) : Bool :=
  decide (pkt_data.length ≥ cfg.HEADER_SIZE)

/-- Whether the flags byte of a received blob has the `LastChunk` bit. -/
def carries_last_chunk (cfg : Config) (pkt_data : List Byte) : Bool :=
  decide ((getByte pkt_data cfg.FLAGS_OFF).val &&& LastChunk ≠ 0)

/-- The `chunk_index` field of a received blob. -/
def blob_chunk_index (cfg : Config) (pkt_data : List Byte) : Nat :=
  readU32LE pkt_data cfg.CHUNK_INDEX_OFF

/-- The received blobs that are long enough to carry a header, in order of arrival. -/
def received_headers (cfg : Config) (frames : List (List (List Byte))) : List (List Byte) :=
  frames.flatten.filter (carries_header cfg)

/-- The spec's `max_chunk_index_seen`: the maximum `chunk_index` over the received
packets, `0` when none is long enough to carry a header. -/
def max_chunk_index_seen (cfg : Config) (frames : List (List (List Byte))) : Nat :=
  ((received_headers cfg frames).map (blob_chunk_index cfg)).foldr max 0

/-- The spec's `last_chunk_index`: the `chunk_index` of the latest received packet
carrying the `LastChunk` flag; `none` when no received packet carries it. -/
def spec_last_chunk_index (cfg : Config) (frames : List (List (List Byte))) : Option Nat :=
  (((received_headers cfg frames).filter (carries_last_chunk cfg)).getLast?).map
    (blob_chunk_index cfg)

/-- A received blob of `HEADER_SIZE = 50` bytes, each `0xFF`. -/
def blobAllOnes : List Byte := List.replicate 50 255

/-! ### The command line of `main` -/

/-- The variables `input_path`, `output_path`, `encrypt` and `password` of `main`. -/
structure ParsedArgs where
  input_path : String
  output_path : String
  encrypt : Bool
  password : String
deriving DecidableEq, Repr

/-- The values `main` initialises its variables with: empty strings and `false`. -/
def ParsedArgs.init : ParsedArgs :=
  { input_path := "", output_path := "", encrypt := false, password := "" }

/-- The argument loop of `main`, `for (int i = 2; i < argc; ++i)`, over the
arguments from `argv[i]` on. The pattern `arg :: value :: rest` is the case
`i + 1 < argc`, where `value` is `argv[++i]`; `[arg]` is the case `i + 1 = argc`.
`none` is the final `else` branch, which prints the usage and returns `1`. -/
def parse_args : List String → ParsedArgs → Option ParsedArgs
  | [], st => some st
  | [arg], st =>
    if arg = "--encrypt" ∨ arg = "-e" then some { st with encrypt := true } else none
  | arg :: value :: rest, st =>
    if arg = "--input" ∨ arg = "-i" then parse_args rest { st with input_path := value }
    else if arg = "--output" ∨ arg = "-o" then parse_args rest { st with output_path := value }
    else if arg = "--encrypt" ∨ arg = "-e" then
      parse_args (value :: rest) { st with encrypt := true }
    else if arg = "--password" ∨ arg = "-p" then parse_args rest { st with password := value }
    else none

/-- What `main` does: it returns a code without calling `do_encode` or
`do_decode`, or it calls one of them with the arguments given and returns what
the call returns. -/
inductive MainResult where
  | returns (code : Nat)
  | calls_do_encode (input_path output_path : String) (encrypt : Bool) (password : String)
  | calls_do_decode (input_path output_path : String) (password : String)
deriving DecidableEq, Repr

/-- The function `main` on the argument vector `argv` (`argc` is its length,
`argv[0]` the program name). -/
def main (argv : List String) : MainResult :=
  if argv.length < 2 then .returns 1
  else
    let command := argv.getD 1 ""
    if command ≠ "encode" ∧ command ≠ "decode" then .returns 1
    else
      match parse_args (argv.drop 2) ParsedArgs.init with
      | none => .returns 1
      | some st =>
        if st.input_path = "" ∨ st.output_path = "" then .returns 1
        else if st.encrypt = true ∧ st.password = "" then .returns 1
        else if command = "encode" then
          .calls_do_encode st.input_path st.output_path st.encrypt st.password
        else .calls_do_decode st.input_path st.output_path st.password

/-! ### The command line as the spec reads it -/

/-- One item of the command line after the command: an option with its value
(`--input <file>`, `--output <file>`, `--password <pwd>`, each with its short
form), the option `--encrypt`, or an argument that is none of these: unknown,
or an option whose value is missing. -/
inductive CliItem where
  | input (file : String)
  | output (file : String)
  | encrypt
  | password (pwd : String)
  | unknown_or_incomplete (arg : String)
deriving DecidableEq, Repr

/-- The items of a command line, read from the left; an option that takes a
value takes the next argument, whatever it is. Reading stops at the first
argument that is unknown or incomplete. -/
def cli_items : List String → List CliItem
  | [] => []
  | [arg] =>
    if arg = "--encrypt" ∨ arg = "-e" then [CliItem.encrypt]
    else [CliItem.unknown_or_incomplete arg]
  | arg :: value :: rest =>
    if arg = "--input" ∨ arg = "-i" then CliItem.input value :: cli_items rest
    else if arg = "--output" ∨ arg = "-o" then CliItem.output value :: cli_items rest
    else if arg = "--encrypt" ∨ arg = "-e" then CliItem.encrypt :: cli_items (value :: rest)
    else if arg = "--password" ∨ arg = "-p" then CliItem.password value :: cli_items rest
    else [CliItem.unknown_or_incomplete arg]

/-- The command line names a valid command: `argv[1]` is `encode` or `decode`. -/
def valid_command (argv : List String) : Prop :=
  2 ≤ argv.length ∧ (argv.getD 1 "" = "encode" ∨ argv.getD 1 "" = "decode")

instance (argv : List String) : Decidable (valid_command argv) := by
  unfold valid_command; infer_instance

/-! ## A sample instance

A small configuration and a small instance of the external collaborators, on
which the model runs to completion; the theorems below are instantiated on it. -/

/-- Modelled from the spec: a configuration whose header layout is the field
list of the packet header section packed in order (magic u32, version u8,
flags u8, file_id 16 bytes, chunk_index u32, chunk_size u32, original_size u32,
symbol_size u16, N u32, block_id u32, payload_length u16, CRC u32; 50 bytes),
with `INCLUDE_SOURCE` set and a repair overhead of one tenth. The constants of
`configuration.h` are not part of the modelled sources; the sizes here are
small sample values. -/
def sampleConfig : Config :=
  { CHUNK_SIZE_BYTES := 64
    SYMBOL_SIZE_BYTES := 2
    INCLUDE_SOURCE := true
    HEADER_SIZE := 50
    HEADER_SIZE_V2 := 50
    MAGIC_ID := 0x59544D53
    VERSION_ID_V2 := 2
    MAGIC_OFF := 0
    VERSION_OFF := 4
    FLAGS_OFF := 5
    FILE_ID_OFF := 6
    CHUNK_INDEX_OFF := 22
    CHUNK_SIZE_OFF := 26
    ORIGINAL_SIZE_OFF := 30
    SYMBOL_SIZE_OFF := 34
    K_OFF := 36
    ESI_OFF := 40
    PAYLOAD_LEN_OFF := 44
    CRC_OFF_V2 := 46
    CRC_SIZE := 4
    repairCeil := fun n => (n + 9) / 10 }

/-- One bit step of the reflected CRC-32C (Castagnoli polynomial `0x82F63B78`). -/
def crc32c_bit (c : Nat) : Nat :=
  if c % 2 = 1 then (c / 2) ^^^ 0x82F63B78 else c / 2

/-- One byte step of CRC-32C. -/
def crc32c_byte (c : Nat) (b : Byte) : Nat :=
  crc32c_bit (crc32c_bit (crc32c_bit (crc32c_bit (crc32c_bit (crc32c_bit
    (crc32c_bit (crc32c_bit (c ^^^ b.val))))))))

/-- Modelled from the spec: CRC-32C of a byte string; the checksum routine is
not part of the modelled sources. -/
def crc32c (data : List Byte) : Nat :=
  (data.foldl crc32c_byte 0xFFFFFFFF) ^^^ 0xFFFFFFFF

/-- Modelled from the spec: the ciphertext blob of `encrypt_chunk`, laid out as
`nonce (12) ∥ ciphertext ∥ tag (16)`. The cipher is not part of the modelled
sources: the nonce is `file_id[0..8] ∥ chunk_index` (little-endian), the
ciphertext bytes are the plaintext bytes offset by the first key byte and the
tag is zero, which keeps the layout and the length of the blob. -/
def sample_encrypt_chunk (plain key : List Byte) (file_id : FileId) (chunk_index : Nat) :
    List Byte :=
  let nonce := file_id.val.take 8 ++ [toByte chunk_index, toByte (chunk_index / 256),
    toByte (chunk_index / 65536), toByte (chunk_index / 16777216)]
  let ciphertext := plain.map fun b => b + getByte key 0
  nonce ++ ciphertext ++ List.replicate 16 0

/-- A stand-in for `wirehair_encode`: block `blockId` is the slice of the message
at `(blockId - 1) * bufferBytes`, zero-filled at and past the end of the message
(repair symbols are not reproduced); it is written at the start of the buffer. -/
def sample_wirehair_encode (codec : List Byte) (blockId : Nat) (buffer : List Byte)
    (bufferBytes : Nat) : Option (List Byte × Nat) :=
  let writeLen := min bufferBytes buffer.length
  let symbol := ((codec.drop ((blockId - 1) * bufferBytes)).take writeLen)
  let symbol := symbol ++ List.replicate (writeLen - symbol.length) 0
  some (symbol ++ buffer.drop writeLen, writeLen)

/-- A small instance of the external collaborators: CRC-32C over header then
payload, a stand-in for the erasure library that always succeeds, the blob
layout of the spec for `encrypt_chunk`; SHA-256 and the key derivation are not
reproduced (an empty digest and a key cut from the password and the salt). -/
def sampleExternals : Externals (List Byte) :=
  { packet_crc32c := fun header payload _ _ => crc32c (header ++ payload)
    sha256 := fun _ => []
    wirehair_init_ok := true
    wirehair_encoder_create := fun message _ _ => some message
    wirehair_encode := sample_wirehair_encode
    derive_key := fun password salt => (password ++ salt.val ++ List.replicate 32 0).take 32
    encrypt_chunk := sample_encrypt_chunk }

/-- The result of `encode_chunk` on the sample instance for the one-byte chunk
`0x41`, chunk index `0`, last chunk, not encrypted. -/
def sampleResult : Except String (List Packet × ChunkManifestEntry) :=
  encode_chunk sampleConfig sampleExternals make_file_id 0 [0x41] true false

/-- The packets of `sampleResult`. -/
def samplePackets : List Packet :=
  match sampleResult with
  | .ok (packets, _) => packets
  | .error _ => []

/-- The manifest entry of `sampleResult`. -/
def sampleManifest : ChunkManifestEntry :=
  match sampleResult with
  | .ok (_, manifest) => manifest
  | .error _ => ⟨0, 0, 0, 0, 0, []⟩

/-- The result of the chunk loop body of `do_encode` on the sample instance for
a file of one chunk holding the byte `0x41`, encrypted under the password `pw`. -/
def sampleEncryptedResult : Except String (List Packet × ChunkManifestEntry) :=
  do_encode_chunk sampleConfig sampleExternals [[0x41]] true [0x70, 0x77] 0

/-- The packets of `sampleEncryptedResult`. -/
def sampleEncryptedPackets : List Packet :=
  match sampleEncryptedResult with
  | .ok (packets, _) => packets
  | .error _ => []

/-- The manifest entry of `sampleEncryptedResult`. -/
def sampleEncryptedManifest : ChunkManifestEntry :=
  match sampleEncryptedResult with
  | .ok (_, manifest) => manifest
  | .error _ => ⟨0, 0, 0, 0, 0, []⟩

/-- A file of `2^32 + 1` chunks, each holding the byte `0x41`. -/
def chunksBeyondInt : List (List Byte) := List.replicate (2 ^ 32 + 1) [0x41]

/-- A file of `2^31` chunks, each holding the byte `0x41`. -/
def chunksIntMin : List (List Byte) := List.replicate (2 ^ 31) [0x41]

/-! ## Basic facts about buffers -/

theorem getByte_set (l : List Byte) (i j : Nat) (a : Byte) :
    getByte (l.set i a) j = if i = j ∧ i < l.length then a else getByte l j := by
  unfold getByte
  by_cases hij : i = j
  · subst hij
    by_cases hl : i < l.length
    · simp [List.getD_eq_getElem?_getD, hl]
    · have h1 : (l.set i a).length ≤ i := by simp; omega
      have h2 : l.length ≤ i := Nat.le_of_not_lt hl
      simp [List.getD_eq_getElem?_getD, hl, List.getElem?_eq_none h1,
        List.getElem?_eq_none h2]
  · simp [List.getD_eq_getElem?_getD, hij, List.getElem?_set_ne hij]

theorem getByte_set_ne (l : List Byte) (i j : Nat) (a : Byte) (h : i ≠ j) :
    getByte (l.set i a) j = getByte l j := by
  rw [getByte_set]; simp [h]

theorem getByte_set_eq (l : List Byte) (i : Nat) (a : Byte) (h : i < l.length) :
    getByte (l.set i a) i = a := by
  rw [getByte_set]; simp [h]

@[simp] theorem length_writeByte (b : List Byte) (off v : Nat) :
    (writeByte b off v).length = b.length := by
  simp [writeByte]

@[simp] theorem length_writeU16LE (b : List Byte) (off v : Nat) :
    (writeU16LE b off v).length = b.length := by
  simp [writeU16LE]

@[simp] theorem length_writeU32LE (b : List Byte) (off v : Nat) :
    (writeU32LE b off v).length = b.length := by
  simp [writeU32LE]

@[simp] theorem length_writeBytes (src b : List Byte) (off : Nat) :
    (writeBytes b off src).length = b.length := by
  induction src generalizing b off with
  | nil => rfl
  | cons x xs ih => simp [writeBytes, ih]

theorem getByte_writeByte_ne (b : List Byte) (off v j : Nat) (h : j ≠ off) :
    getByte (writeByte b off v) j = getByte b j := by
  unfold writeByte
  exact getByte_set_ne _ _ _ _ (Ne.symm h)

theorem getByte_writeU16LE_ne (b : List Byte) (off v j : Nat) (h : j < off ∨ off + 2 ≤ j) :
    getByte (writeU16LE b off v) j = getByte b j := by
  unfold writeU16LE
  rw [getByte_set_ne _ _ _ _ (by omega), getByte_set_ne _ _ _ _ (by omega)]

theorem getByte_writeU32LE_ne (b : List Byte) (off v j : Nat) (h : j < off ∨ off + 4 ≤ j) :
    getByte (writeU32LE b off v) j = getByte b j := by
  unfold writeU32LE
  rw [getByte_set_ne _ _ _ _ (by omega), getByte_set_ne _ _ _ _ (by omega),
    getByte_set_ne _ _ _ _ (by omega), getByte_set_ne _ _ _ _ (by omega)]

theorem getByte_writeBytes_ne (src b : List Byte) (off j : Nat)
    (h : j < off ∨ off + src.length ≤ j) :
    getByte (writeBytes b off src) j = getByte b j := by
  induction src generalizing b off with
  | nil => rfl
  | cons x xs ih =>
    simp only [writeBytes, List.length_cons] at h ⊢
    rw [ih _ _ (by omega), getByte_set_ne _ _ _ _ (by omega)]

theorem getByte_writeByte_eq (b : List Byte) (off v : Nat) (h : off < b.length) :
    getByte (writeByte b off v) off = toByte v := by
  unfold writeByte
  exact getByte_set_eq _ _ _ h

theorem readU16LE_writeU16LE (b : List Byte) (off v : Nat) (h : off + 2 ≤ b.length) :
    readU16LE (writeU16LE b off v) off = v % 2 ^ 16 := by
  unfold readU16LE writeU16LE
  rw [getByte_set_ne _ _ _ _ (by omega), getByte_set_eq _ _ _ (by omega),
    getByte_set_eq _ _ _ (by simp; omega)]
  simp only [toByte]
  omega

theorem readU32LE_writeU32LE (b : List Byte) (off v : Nat) (h : off + 4 ≤ b.length) :
    readU32LE (writeU32LE b off v) off = v % 2 ^ 32 := by
  unfold readU32LE writeU32LE
  rw [getByte_set_ne _ _ _ _ (by omega), getByte_set_ne _ _ _ _ (by omega),
    getByte_set_ne _ _ _ _ (by omega), getByte_set_eq _ _ _ (by omega),
    getByte_set_ne _ _ _ _ (by omega), getByte_set_ne _ _ _ _ (by omega),
    getByte_set_eq _ _ _ (by simp; omega),
    getByte_set_ne _ _ _ _ (by omega), getByte_set_eq _ _ _ (by simp; omega),
    getByte_set_eq _ _ _ (by simp; omega)]
  simp only [toByte]
  omega

theorem readU16LE_congr (a b : List Byte) (off : Nat)
    (h : ∀ j, off ≤ j → j < off + 2 → getByte a j = getByte b j) :
    readU16LE a off = readU16LE b off := by
  unfold readU16LE
  rw [h off (by omega) (by omega), h (off + 1) (by omega) (by omega)]

theorem readU32LE_congr (a b : List Byte) (off : Nat)
    (h : ∀ j, off ≤ j → j < off + 4 → getByte a j = getByte b j) :
    readU32LE a off = readU32LE b off := by
  unfold readU32LE
  rw [h off (by omega) (by omega), h (off + 1) (by omega) (by omega),
    h (off + 2) (by omega) (by omega), h (off + 3) (by omega) (by omega)]

theorem readU32LE_writeU32LE_ne (b : List Byte) (off' v off : Nat)
    (h : off + 4 ≤ off' ∨ off' + 4 ≤ off) :
    readU32LE (writeU32LE b off' v) off = readU32LE b off :=
  readU32LE_congr _ _ _ fun j _ _ => getByte_writeU32LE_ne _ _ _ _ (by omega)

theorem readU32LE_writeU16LE_ne (b : List Byte) (off' v off : Nat)
    (h : off + 4 ≤ off' ∨ off' + 2 ≤ off) :
    readU32LE (writeU16LE b off' v) off = readU32LE b off :=
  readU32LE_congr _ _ _ fun j _ _ => getByte_writeU16LE_ne _ _ _ _ (by omega)

theorem readU16LE_writeU32LE_ne (b : List Byte) (off' v off : Nat)
    (h : off + 2 ≤ off' ∨ off' + 4 ≤ off) :
    readU16LE (writeU32LE b off' v) off = readU16LE b off :=
  readU16LE_congr _ _ _ fun j _ _ => getByte_writeU32LE_ne _ _ _ _ (by omega)

theorem readU16LE_writeU16LE_ne (b : List Byte) (off' v off : Nat)
    (h : off + 2 ≤ off' ∨ off' + 2 ≤ off) :
    readU16LE (writeU16LE b off' v) off = readU16LE b off :=
  readU16LE_congr _ _ _ fun j _ _ => getByte_writeU16LE_ne _ _ _ _ (by omega)

theorem length_header_before_crc (cfg : Config) (id : FileId)
    (ci cs os ss ns bi pl fl : Nat) :
    (header_before_crc cfg id ci cs os ss ns bi pl fl).length = cfg.HEADER_SIZE_V2 := by
  simp [header_before_crc]

theorem length_create_packet_header {Codec : Type} (cfg : Config) (ext : Externals Codec)
    (id : FileId) (ci cs os ss ns bi pl fl : Nat) (payload : List Byte) :
    (create_packet_header cfg ext id ci cs os ss ns bi pl fl payload).length
      = cfg.HEADER_SIZE_V2 := by
  simp [create_packet_header, length_header_before_crc]

theorem getByte_create_packet_header_of_not_crc {Codec : Type} (cfg : Config)
    (ext : Externals Codec) (id : FileId) (ci cs os ss ns bi pl fl : Nat)
    (payload : List Byte) (j : Nat) (h : j < cfg.CRC_OFF_V2 ∨ cfg.CRC_OFF_V2 + 4 ≤ j) :
    getByte (create_packet_header cfg ext id ci cs os ss ns bi pl fl payload) j
      = getByte (header_before_crc cfg id ci cs os ss ns bi pl fl) j := by
  unfold create_packet_header
  exact getByte_writeU32LE_ne _ _ _ _ h

theorem flags_header_before_crc (cfg : Config) (hL : cfg.LayoutOk) (id : FileId)
    (ci cs os ss ns bi pl fl : Nat) :
    getByte (header_before_crc cfg id ci cs os ss ns bi pl fl) cfg.FLAGS_OFF = toByte fl := by
  obtain ⟨h1, h2, h3, h4, h5, h6, h7, h8, h9, h10, h11, h12⟩ := hL
  have hid := id.property
  unfold header_before_crc
  simp only []
  rw [getByte_writeU32LE_ne _ _ _ _ (by omega), getByte_writeU16LE_ne _ _ _ _ (by omega),
    getByte_writeU32LE_ne _ _ _ _ (by omega), getByte_writeU32LE_ne _ _ _ _ (by omega),
    getByte_writeU16LE_ne _ _ _ _ (by omega), getByte_writeU32LE_ne _ _ _ _ (by omega),
    getByte_writeU32LE_ne _ _ _ _ (by omega), getByte_writeU32LE_ne _ _ _ _ (by omega),
    getByte_writeBytes_ne _ _ _ _ (by omega), getByte_writeByte_eq _ _ _ (by simp; omega)]

theorem chunk_index_header_before_crc (cfg : Config) (hL : cfg.LayoutOk) (id : FileId)
    (ci cs os ss ns bi pl fl : Nat) :
    readU32LE (header_before_crc cfg id ci cs os ss ns bi pl fl) cfg.CHUNK_INDEX_OFF
      = ci % 2 ^ 32 := by
  obtain ⟨h1, h2, h3, h4, h5, h6, h7, h8, h9, h10, h11, h12⟩ := hL
  unfold header_before_crc
  simp only []
  rw [readU32LE_writeU32LE_ne _ _ _ _ (by omega), readU32LE_writeU16LE_ne _ _ _ _ (by omega),
    readU32LE_writeU32LE_ne _ _ _ _ (by omega), readU32LE_writeU32LE_ne _ _ _ _ (by omega),
    readU32LE_writeU16LE_ne _ _ _ _ (by omega), readU32LE_writeU32LE_ne _ _ _ _ (by omega),
    readU32LE_writeU32LE_ne _ _ _ _ (by omega), readU32LE_writeU32LE _ _ _ (by simp; omega)]

theorem chunk_size_header_before_crc (cfg : Config) (hL : cfg.LayoutOk) (id : FileId)
    (ci cs os ss ns bi pl fl : Nat) :
    readU32LE (header_before_crc cfg id ci cs os ss ns bi pl fl) cfg.CHUNK_SIZE_OFF
      = cs % 2 ^ 32 := by
  obtain ⟨h1, h2, h3, h4, h5, h6, h7, h8, h9, h10, h11, h12⟩ := hL
  unfold header_before_crc
  simp only []
  rw [readU32LE_writeU32LE_ne _ _ _ _ (by omega), readU32LE_writeU16LE_ne _ _ _ _ (by omega),
    readU32LE_writeU32LE_ne _ _ _ _ (by omega), readU32LE_writeU32LE_ne _ _ _ _ (by omega),
    readU32LE_writeU16LE_ne _ _ _ _ (by omega), readU32LE_writeU32LE_ne _ _ _ _ (by omega),
    readU32LE_writeU32LE _ _ _ (by simp; omega)]

theorem original_size_header_before_crc (cfg : Config) (hL : cfg.LayoutOk) (id : FileId)
    (ci cs os ss ns bi pl fl : Nat) :
    readU32LE (header_before_crc cfg id ci cs os ss ns bi pl fl) cfg.ORIGINAL_SIZE_OFF
      = os % 2 ^ 32 := by
  obtain ⟨h1, h2, h3, h4, h5, h6, h7, h8, h9, h10, h11, h12⟩ := hL
  unfold header_before_crc
  simp only []
  rw [readU32LE_writeU32LE_ne _ _ _ _ (by omega), readU32LE_writeU16LE_ne _ _ _ _ (by omega),
    readU32LE_writeU32LE_ne _ _ _ _ (by omega), readU32LE_writeU32LE_ne _ _ _ _ (by omega),
    readU32LE_writeU16LE_ne _ _ _ _ (by omega), readU32LE_writeU32LE _ _ _ (by simp; omega)]

theorem symbol_size_header_before_crc (cfg : Config) (hL : cfg.LayoutOk) (id : FileId)
    (ci cs os ss ns bi pl fl : Nat) :
    readU16LE (header_before_crc cfg id ci cs os ss ns bi pl fl) cfg.SYMBOL_SIZE_OFF
      = ss % 2 ^ 16 := by
  obtain ⟨h1, h2, h3, h4, h5, h6, h7, h8, h9, h10, h11, h12⟩ := hL
  unfold header_before_crc
  simp only []
  rw [readU16LE_writeU32LE_ne _ _ _ _ (by omega), readU16LE_writeU16LE_ne _ _ _ _ (by omega),
    readU16LE_writeU32LE_ne _ _ _ _ (by omega), readU16LE_writeU32LE_ne _ _ _ _ (by omega),
    readU16LE_writeU16LE _ _ _ (by simp; omega)]

theorem num_source_header_before_crc (cfg : Config) (hL : cfg.LayoutOk) (id : FileId)
    (ci cs os ss ns bi pl fl : Nat) :
    readU32LE (header_before_crc cfg id ci cs os ss ns bi pl fl) cfg.K_OFF = ns % 2 ^ 32 := by
  obtain ⟨h1, h2, h3, h4, h5, h6, h7, h8, h9, h10, h11, h12⟩ := hL
  unfold header_before_crc
  simp only []
  rw [readU32LE_writeU32LE_ne _ _ _ _ (by omega), readU32LE_writeU16LE_ne _ _ _ _ (by omega),
    readU32LE_writeU32LE_ne _ _ _ _ (by omega), readU32LE_writeU32LE _ _ _ (by simp; omega)]

theorem block_id_header_before_crc (cfg : Config) (hL : cfg.LayoutOk) (id : FileId)
    (ci cs os ss ns bi pl fl : Nat) :
    readU32LE (header_before_crc cfg id ci cs os ss ns bi pl fl) cfg.ESI_OFF = bi % 2 ^ 32 := by
  obtain ⟨h1, h2, h3, h4, h5, h6, h7, h8, h9, h10, h11, h12⟩ := hL
  unfold header_before_crc
  simp only []
  rw [readU32LE_writeU32LE_ne _ _ _ _ (by omega), readU32LE_writeU16LE_ne _ _ _ _ (by omega),
    readU32LE_writeU32LE _ _ _ (by simp; omega)]

theorem payload_length_header_before_crc (cfg : Config) (hL : cfg.LayoutOk) (id : FileId)
    (ci cs os ss ns bi pl fl : Nat) :
    readU16LE (header_before_crc cfg id ci cs os ss ns bi pl fl) cfg.PAYLOAD_LEN_OFF
      = pl % 2 ^ 16 := by
  obtain ⟨h1, h2, h3, h4, h5, h6, h7, h8, h9, h10, h11, h12⟩ := hL
  unfold header_before_crc
  simp only []
  rw [readU16LE_writeU32LE_ne _ _ _ _ (by omega), readU16LE_writeU16LE _ _ _ (by simp; omega)]

theorem getByte_append_left (a b : List Byte) (j : Nat) (h : j < a.length) :
    getByte (a ++ b) j = getByte a j := by
  unfold getByte
  simp [List.getD_eq_getElem?_getD, List.getElem?_append_left h]

/-- The packet the loop body of `encode_chunk` builds for one block. -/
theorem packet_fields {Codec : Type} (cfg : Config) (hL : cfg.LayoutOk) (ext : Externals Codec)
    (id : FileId) (ci cs os ss ns bi pl fl : Nat) (payload : List Byte) :
    let p := buildPacket (create_packet_header cfg ext id ci cs os ss ns bi pl fl payload) payload
    p.flags cfg = fl % 256 ∧ p.chunk_index cfg = ci % 2 ^ 32 ∧ p.chunk_size cfg = cs % 2 ^ 32 ∧
    p.original_size cfg = os % 2 ^ 32 ∧ p.symbol_size cfg = ss % 2 ^ 16 ∧
    p.num_source cfg = ns % 2 ^ 32 ∧ p.block_id cfg = bi % 2 ^ 32 ∧
    p.payload_length cfg = pl % 2 ^ 16 ∧
    p.header cfg = create_packet_header cfg ext id ci cs os ss ns bi pl fl payload ∧
    p.payload cfg = payload := by
  intro p
  have hlen := length_create_packet_header cfg ext id ci cs os ss ns bi pl fl payload
  have hL' := hL
  obtain ⟨h1, h2, h3, h4, h5, h6, h7, h8, h9, h10, h11, h12⟩ := hL'
  have key : ∀ j, j < cfg.CRC_OFF_V2 → getByte p.bytes j
      = getByte (header_before_crc cfg id ci cs os ss ns bi pl fl) j := by
    intro j hj
    show getByte (_ ++ _) j = _
    rw [getByte_append_left _ _ _ (by omega),
      getByte_create_packet_header_of_not_crc _ _ _ _ _ _ _ _ _ _ _ _ _ (Or.inl hj)]
  refine ⟨?_, ?_, ?_, ?_, ?_, ?_, ?_, ?_, ?_, ?_⟩
  · unfold Packet.flags
    rw [key _ (by omega), flags_header_before_crc cfg hL]
    rfl
  · unfold Packet.chunk_index
    rw [readU32LE_congr _ _ _ (fun j _ _ => key j (by omega)),
      chunk_index_header_before_crc cfg hL]
  · unfold Packet.chunk_size
    rw [readU32LE_congr _ _ _ (fun j _ _ => key j (by omega)),
      chunk_size_header_before_crc cfg hL]
  · unfold Packet.original_size
    rw [readU32LE_congr _ _ _ (fun j _ _ => key j (by omega)),
      original_size_header_before_crc cfg hL]
  · unfold Packet.symbol_size
    rw [readU16LE_congr _ _ _ (fun j _ _ => key j (by omega)),
      symbol_size_header_before_crc cfg hL]
  · unfold Packet.num_source
    rw [readU32LE_congr _ _ _ (fun j _ _ => key j (by omega)),
      num_source_header_before_crc cfg hL]
  · unfold Packet.block_id
    rw [readU32LE_congr _ _ _ (fun j _ _ => key j (by omega)),
      block_id_header_before_crc cfg hL]
  · unfold Packet.payload_length
    rw [readU16LE_congr _ _ _ (fun j _ _ => key j (by omega)),
      payload_length_header_before_crc cfg hL]
  · show List.take _ (_ ++ _) = _
    rw [← hlen, List.take_left']
    rfl
  · show List.drop _ (_ ++ _) = _
    rw [← hlen, List.drop_left']
    rfl

theorem encode_blocks_ok {Codec : Type} (cfg : Config) (ext : Externals Codec) (id : FileId)
    (codec : Codec) (ci cs os ss ns : Nat) (last enc : Bool) :
    ∀ (count blockId : Nat) (buf : List Byte) (pkts : List Packet),
      encode_blocks cfg ext id codec ci cs os ss ns last enc count blockId buf = .ok pkts →
      pkts.length = count ∧
      ∀ k, k < count → ∃ bufIn out w,
        ext.wirehair_encode codec (blockId + k) bufIn (cfg.SYMBOL_SIZE_BYTES % 2 ^ 32)
          = some (out, w) ∧
        pkts[k]? = some (buildPacket (create_packet_header cfg ext id ci cs os ss ns
          (blockId + k) (w % 2 ^ 16) (buildFlags (blockId + k) ns last enc) (out.take w))
          (out.take w)) ∧
        (ext.WritesWithinBuffer → bufIn.length = buf.length) := by
  intro count
  induction count with
  | zero =>
    intro blockId buf pkts h
    simp only [encode_blocks, Except.ok.injEq] at h
    subst h
    exact ⟨rfl, fun k hk => absurd hk (Nat.not_lt_zero k)⟩
  | succ n ih =>
    intro blockId buf pkts h
    rw [encode_blocks] at h
    cases hw : ext.wirehair_encode codec blockId buf (cfg.SYMBOL_SIZE_BYTES % 2 ^ 32) with
    | none => rw [hw] at h; simp at h
    | some r =>
      obtain ⟨out, w⟩ := r
      rw [hw] at h
      simp only [] at h
      cases hr : encode_blocks cfg ext id codec ci cs os ss ns last enc n (blockId + 1) out with
      | error e => simp [hr] at h
      | ok rest =>
        simp only [hr, Except.ok.injEq] at h
        subst h
        obtain ⟨hlen, hrest⟩ := ih (blockId + 1) out rest hr
        refine ⟨by simp [hlen], ?_⟩
        intro k hk
        cases k with
        | zero =>
          exact ⟨buf, out, w, by simpa using hw, by simp, fun _ => rfl⟩
        | succ k =>
          obtain ⟨bufIn, out', w', h1, h2, h3⟩ := hrest k (by omega)
          refine ⟨bufIn, out', w', ?_, ?_, ?_⟩
          · rw [show blockId + (k + 1) = blockId + 1 + k by omega]; exact h1
          · rw [show blockId + (k + 1) = blockId + 1 + k by omega]; simpa using h2
          · intro hW
            rw [h3 hW]
            exact (hW _ _ _ _ _ _ hw).1

theorem encode_blocks_succeeds {Codec : Type} (cfg : Config) (ext : Externals Codec)
    (hS : ext.Succeeds) (id : FileId) (codec : Codec) (ci cs os ss ns : Nat) (last enc : Bool) :
    ∀ (count blockId : Nat) (buf : List Byte),
      ∃ pkts, encode_blocks cfg ext id codec ci cs os ss ns last enc count blockId buf
        = .ok pkts := by
  intro count
  induction count with
  | zero => intro blockId buf; exact ⟨[], rfl⟩
  | succ n ih =>
    intro blockId buf
    rw [encode_blocks]
    have h := hS.2.2 codec blockId buf (cfg.SYMBOL_SIZE_BYTES % 2 ^ 32)
    cases hw : ext.wirehair_encode codec blockId buf (cfg.SYMBOL_SIZE_BYTES % 2 ^ 32) with
    | none => rw [hw] at h; simp at h
    | some r =>
      obtain ⟨out, w⟩ := r
      obtain ⟨rest, hr⟩ := ih (blockId + 1) out
      simp only [hr]
      exact ⟨_, rfl⟩

theorem encode_chunk_eq {Codec : Type} (cfg : Config) (ext : Externals Codec) (id : FileId)
    (ci : Nat) (data : List Byte) (last enc : Bool) :
    encode_chunk cfg ext id ci data last enc =
      if ext.wirehair_init_ok = false then .error "wirehair_init failed"
      else if data.length > cfg.CHUNK_SIZE_BYTES then
        .error "chunkData larger than CHUNK_SIZE_BYTES"
      else
        match ext.wirehair_encoder_create (data_to_encode cfg data)
            ((data_to_encode cfg data).length % 2 ^ 32) (cfg.SYMBOL_SIZE_BYTES % 2 ^ 32) with
        | none => .error "wirehair_encoder_create() failed"
        | some codec =>
          if firstBlockId cfg data ≤ lastBlockId cfg data ∧ lastBlockId cfg data = 2 ^ 32 - 1 then
            .error "block-id loop has no normal exit"
          else
            match encode_blocks cfg ext id codec ci ((data_to_encode cfg data).length % 2 ^ 32)
                (data.length % 2 ^ 32) (cfg.SYMBOL_SIZE_BYTES % 2 ^ 16) (numSource cfg data)
                last enc (lastBlockId cfg data + 1 - firstBlockId cfg data)
                (firstBlockId cfg data) (List.replicate cfg.SYMBOL_SIZE_BYTES 0) with
            | .error e => .error e
            | .ok packets => .ok (packets,
                { chunk_index := ci
                  chunk_size := (data_to_encode cfg data).length % 2 ^ 32
                  original_size := data.length % 2 ^ 32
                  T := cfg.SYMBOL_SIZE_BYTES % 2 ^ 16
                  N := numSource cfg data
                  sha256 := ext.sha256 data }) := rfl

theorem encode_chunk_inv {Codec : Type} (cfg : Config) (ext : Externals Codec) (id : FileId)
    (ci : Nat) (data : List Byte) (last enc : Bool) (pkts : List Packet)
    (m : ChunkManifestEntry)
    (h : encode_chunk cfg ext id ci data last enc = .ok (pkts, m)) :
    data.length ≤ cfg.CHUNK_SIZE_BYTES ∧
    m = { chunk_index := ci
          chunk_size := (data_to_encode cfg data).length % 2 ^ 32
          original_size := data.length % 2 ^ 32
          T := cfg.SYMBOL_SIZE_BYTES % 2 ^ 16
          N := numSource cfg data
          sha256 := ext.sha256 data } ∧
    ∃ codec, ext.wirehair_encoder_create (data_to_encode cfg data)
        ((data_to_encode cfg data).length % 2 ^ 32) (cfg.SYMBOL_SIZE_BYTES % 2 ^ 32)
        = some codec ∧
      ¬ (firstBlockId cfg data ≤ lastBlockId cfg data ∧ lastBlockId cfg data = 2 ^ 32 - 1) ∧
      encode_blocks cfg ext id codec ci ((data_to_encode cfg data).length % 2 ^ 32)
        (data.length % 2 ^ 32) (cfg.SYMBOL_SIZE_BYTES % 2 ^ 16) (numSource cfg data) last enc
        (lastBlockId cfg data + 1 - firstBlockId cfg data) (firstBlockId cfg data)
        (List.replicate cfg.SYMBOL_SIZE_BYTES 0) = .ok pkts := by
  rw [encode_chunk_eq] at h
  by_cases hinit : ext.wirehair_init_ok = false
  · rw [if_pos hinit] at h; simp at h
  rw [if_neg hinit] at h
  by_cases hsize : data.length > cfg.CHUNK_SIZE_BYTES
  · rw [if_pos hsize] at h; simp at h
  rw [if_neg hsize] at h
  cases hcodec : ext.wirehair_encoder_create (data_to_encode cfg data)
      ((data_to_encode cfg data).length % 2 ^ 32) (cfg.SYMBOL_SIZE_BYTES % 2 ^ 32) with
  | none => rw [hcodec] at h; simp at h
  | some codec =>
    rw [hcodec] at h
    simp only [] at h
    by_cases hloop : firstBlockId cfg data ≤ lastBlockId cfg data ∧
        lastBlockId cfg data = 2 ^ 32 - 1
    · rw [if_pos hloop] at h; simp at h
    rw [if_neg hloop] at h
    cases hblocks : encode_blocks cfg ext id codec ci ((data_to_encode cfg data).length % 2 ^ 32)
        (data.length % 2 ^ 32) (cfg.SYMBOL_SIZE_BYTES % 2 ^ 16) (numSource cfg data) last enc
        (lastBlockId cfg data + 1 - firstBlockId cfg data) (firstBlockId cfg data)
        (List.replicate cfg.SYMBOL_SIZE_BYTES 0) with
    | error e => rw [hblocks] at h; simp at h
    | ok packets =>
      rw [hblocks] at h
      simp only [Except.ok.injEq, Prod.mk.injEq] at h
      obtain ⟨hp, hm⟩ := h
      subst hp
      exact ⟨Nat.le_of_not_lt hsize, hm.symm, codec, rfl, hloop, hblocks⟩

/-- What `encode_chunk` returns, packet by packet: the `k`-th packet is the header
for block `firstBlockId + k` followed by the bytes the erasure encoder wrote. -/
theorem encode_chunk_packets {Codec : Type} (cfg : Config) (ext : Externals Codec) (id : FileId)
    (ci : Nat) (data : List Byte) (last enc : Bool) (pkts : List Packet)
    (m : ChunkManifestEntry)
    (h : encode_chunk cfg ext id ci data last enc = .ok (pkts, m)) :
    ∃ codec, ext.wirehair_encoder_create (data_to_encode cfg data)
        ((data_to_encode cfg data).length % 2 ^ 32) (cfg.SYMBOL_SIZE_BYTES % 2 ^ 32)
        = some codec ∧
      pkts.length = lastBlockId cfg data + 1 - firstBlockId cfg data ∧
      ∀ k, k < pkts.length → ∃ bufIn out w,
        ext.wirehair_encode codec (firstBlockId cfg data + k) bufIn
          (cfg.SYMBOL_SIZE_BYTES % 2 ^ 32) = some (out, w) ∧
        pkts[k]? = some (buildPacket (create_packet_header cfg ext id ci
          ((data_to_encode cfg data).length % 2 ^ 32) (data.length % 2 ^ 32)
          (cfg.SYMBOL_SIZE_BYTES % 2 ^ 16) (numSource cfg data) (firstBlockId cfg data + k)
          (w % 2 ^ 16) (buildFlags (firstBlockId cfg data + k) (numSource cfg data) last enc)
          (out.take w)) (out.take w)) ∧
        firstBlockId cfg data + k ≤ lastBlockId cfg data ∧
        (ext.WritesWithinBuffer → bufIn.length = cfg.SYMBOL_SIZE_BYTES) := by
  obtain ⟨_, _, codec, hcodec, _, hblocks⟩ := encode_chunk_inv cfg ext id ci data last enc pkts m h
  obtain ⟨hlen, hk⟩ := encode_blocks_ok cfg ext id codec ci _ _ _ _ last enc _ _ _ _ hblocks
  refine ⟨codec, hcodec, hlen, ?_⟩
  intro k hkl
  obtain ⟨bufIn, out, w, h1, h2, h3⟩ := hk k (by omega)
  refine ⟨bufIn, out, w, h1, h2, by omega, ?_⟩
  intro hW
  rw [h3 hW]
  simp

/-- The same, for an arbitrary packet of the result. -/
theorem encode_chunk_mem {Codec : Type} (cfg : Config) (ext : Externals Codec) (id : FileId)
    (ci : Nat) (data : List Byte) (last enc : Bool) (pkts : List Packet)
    (m : ChunkManifestEntry)
    (h : encode_chunk cfg ext id ci data last enc = .ok (pkts, m))
    (p : Packet) (hp : p ∈ pkts) :
    ∃ (blockId w : Nat) (out : List Byte), firstBlockId cfg data ≤ blockId ∧ blockId ≤ lastBlockId cfg data ∧
      p = buildPacket (create_packet_header cfg ext id ci
          ((data_to_encode cfg data).length % 2 ^ 32) (data.length % 2 ^ 32)
          (cfg.SYMBOL_SIZE_BYTES % 2 ^ 16) (numSource cfg data) blockId
          (w % 2 ^ 16) (buildFlags blockId (numSource cfg data) last enc)
          (out.take w)) (out.take w) ∧
      (ext.WritesWithinBuffer → out.length = cfg.SYMBOL_SIZE_BYTES ∧
        w ≤ cfg.SYMBOL_SIZE_BYTES % 2 ^ 32) := by
  obtain ⟨codec, _, _, hk⟩ := encode_chunk_packets cfg ext id ci data last enc pkts m h
  obtain ⟨k, hkl, hpk⟩ := List.getElem_of_mem hp
  obtain ⟨bufIn, out, w, h1, h2, h3, h4⟩ := hk k hkl
  refine ⟨firstBlockId cfg data + k, w, out, by omega, h3, ?_, ?_⟩
  · rw [List.getElem?_eq_getElem hkl, hpk] at h2
    exact Option.some.inj h2
  · intro hW
    have hb := h4 hW
    obtain ⟨ha, hc⟩ := hW _ _ _ _ _ _ h1
    rw [hb] at ha
    exact ⟨ha, hc⟩

theorem numSource_lt (cfg : Config) (data : List Byte) : numSource cfg data < 2 ^ 32 := by
  unfold numSource computeNumSourceSymbols
  exact Nat.mod_lt _ (by decide)

theorem lastBlockId_lt (cfg : Config) (data : List Byte) : lastBlockId cfg data < 2 ^ 32 := by
  unfold lastBlockId
  exact Nat.mod_lt _ (by decide)

theorem buffer_ext (a b : List Byte) (hlen : a.length = b.length)
    (h : ∀ j, j < a.length → getByte a j = getByte b j) : a = b := by
  apply List.ext_getElem hlen
  intro j h1 h2
  have := h j h1
  unfold getByte at this
  simpa [List.getD_eq_getElem?_getD, List.getElem?_eq_getElem h1,
    List.getElem?_eq_getElem h2] using this

theorem writeU32LE_overwrite (b : List Byte) (off v w : Nat) :
    writeU32LE (writeU32LE b off v) off w = writeU32LE b off w := by
  apply buffer_ext _ _ (by simp)
  intro j _
  simp only [writeU32LE, getByte_set, List.length_set]
  split_ifs <;> rfl

theorem crc32c_bit_lt (c : Nat) (h : c < 2 ^ 32) : crc32c_bit c < 2 ^ 32 := by
  unfold crc32c_bit
  split
  · exact Nat.xor_lt_two_pow (by omega) (by decide)
  · omega

theorem crc32c_byte_lt (c : Nat) (b : Byte) (h : c < 2 ^ 32) : crc32c_byte c b < 2 ^ 32 := by
  unfold crc32c_byte
  have h0 : c ^^^ b.val < 2 ^ 32 := Nat.xor_lt_two_pow h (by have := b.isLt; omega)
  exact crc32c_bit_lt _ (crc32c_bit_lt _ (crc32c_bit_lt _ (crc32c_bit_lt _ (crc32c_bit_lt _
    (crc32c_bit_lt _ (crc32c_bit_lt _ (crc32c_bit_lt _ h0)))))))

theorem crc32c_foldl_lt (data : List Byte) (c : Nat) (h : c < 2 ^ 32) :
    data.foldl crc32c_byte c < 2 ^ 32 := by
  induction data generalizing c with
  | nil => simpa using h
  | cons b rest ih => exact ih _ (crc32c_byte_lt c b h)

theorem crc32c_lt (data : List Byte) : crc32c data < 2 ^ 32 := by
  unfold crc32c
  exact Nat.xor_lt_two_pow (crc32c_foldl_lt data _ (by decide)) (by decide)

theorem sampleExternals_crcIsU32 : sampleExternals.CrcIsU32 := by
  intro header payload _ _
  exact crc32c_lt _

theorem sampleExternals_succeeds : sampleExternals.Succeeds := by
  refine ⟨rfl, ?_, ?_⟩
  · intro _ _ _; rfl
  · intro _ _ _ _; rfl

theorem sampleExternals_writesWithinBuffer : sampleExternals.WritesWithinBuffer := by
  intro codec blockId buffer bufferBytes out writeLen h
  simp only [sampleExternals, sample_wirehair_encode, Option.some.injEq, Prod.mk.injEq] at h
  obtain ⟨h1, h2⟩ := h
  subst h1 h2
  constructor
  · simp only [List.length_append, List.length_replicate, List.length_take, List.length_drop]
    omega
  · exact Nat.min_le_left _ _

theorem sampleConfig_layoutOk : sampleConfig.LayoutOk := by decide

theorem sampleConfig_sizesOk : sampleConfig.SizesOk := by decide

theorem sampleResult_eq : sampleResult = .ok (samplePackets, sampleManifest) := by rfl

/-! ## C1: the checksum field -/

/-- C1. For every call of `create_packet_header` the returned header has
`HEADER_SIZE_V2` bytes, the value stored in its checksum field is
`packet_crc32c` of that header with the checksum field set back to `0` and of
the payload, and every byte outside the checksum field is the byte written
before the checksum; the same holds of the header and payload of every packet
`encode_chunk` returns. -/
theorem C1_stored_crc_is_checksum_of_zeroed_header {Codec : Type} (cfg : Config)
    (ext : Externals Codec) (hcrc : cfg.CRC_OFF_V2 + 4 ≤ cfg.HEADER_SIZE_V2)
    (hu : ext.CrcIsU32) (id : FileId) :
    (∀ (ci cs os ss ns bi pl fl : Nat) (payload : List Byte),
      let header := create_packet_header cfg ext id ci cs os ss ns bi pl fl payload
      header.length = cfg.HEADER_SIZE_V2 ∧
      readU32LE header cfg.CRC_OFF_V2 =
        ext.packet_crc32c (writeU32LE header cfg.CRC_OFF_V2 0) payload cfg.CRC_OFF_V2
          cfg.CRC_SIZE ∧
      ∀ j, j < cfg.CRC_OFF_V2 ∨ cfg.CRC_OFF_V2 + 4 ≤ j →
        getByte header j = getByte (header_before_crc cfg id ci cs os ss ns bi pl fl) j) ∧
    (∀ (ci : Nat) (data : List Byte) (last enc : Bool) (pkts : List Packet)
        (m : ChunkManifestEntry),
      encode_chunk cfg ext id ci data last enc = .ok (pkts, m) → ∀ p ∈ pkts,
        p.crc cfg = ext.packet_crc32c (writeU32LE (p.header cfg) cfg.CRC_OFF_V2 0)
          (p.payload cfg) cfg.CRC_OFF_V2 cfg.CRC_SIZE) := by
  have key : ∀ (ci cs os ss ns bi pl fl : Nat) (payload : List Byte),
      readU32LE (create_packet_header cfg ext id ci cs os ss ns bi pl fl payload)
        cfg.CRC_OFF_V2 =
      ext.packet_crc32c (writeU32LE (create_packet_header cfg ext id ci cs os ss ns bi pl fl
        payload) cfg.CRC_OFF_V2 0) payload cfg.CRC_OFF_V2 cfg.CRC_SIZE := by
    intro ci cs os ss ns bi pl fl payload
    have hz : writeU32LE (create_packet_header cfg ext id ci cs os ss ns bi pl fl payload)
        cfg.CRC_OFF_V2 0 = header_before_crc cfg id ci cs os ss ns bi pl fl := by
      unfold create_packet_header
      simp only []
      rw [writeU32LE_overwrite]
      unfold header_before_crc
      simp only []
      rw [writeU32LE_overwrite]
    rw [hz]
    unfold create_packet_header
    simp only []
    rw [readU32LE_writeU32LE _ _ _ (by rw [length_header_before_crc]; exact hcrc)]
    exact Nat.mod_eq_of_lt (hu _ _ _ _)
  constructor
  · intro ci cs os ss ns bi pl fl payload
    exact ⟨length_create_packet_header _ _ _ _ _ _ _ _ _ _ _ _, key _ _ _ _ _ _ _ _ _,
      fun j hj => getByte_create_packet_header_of_not_crc _ _ _ _ _ _ _ _ _ _ _ _ _ hj⟩
  · intro ci data last enc pkts m h p hp
    obtain ⟨blockId, w, out, _, _, hpeq, _⟩ :=
      encode_chunk_mem cfg ext id ci data last enc pkts m h p hp
    have hlen := length_create_packet_header cfg ext id ci
      ((data_to_encode cfg data).length % 2 ^ 32) (data.length % 2 ^ 32)
      (cfg.SYMBOL_SIZE_BYTES % 2 ^ 16) (numSource cfg data) blockId (w % 2 ^ 16)
      (buildFlags blockId (numSource cfg data) last enc) (out.take w)
    have hhead : p.header cfg = create_packet_header cfg ext id ci
        ((data_to_encode cfg data).length % 2 ^ 32) (data.length % 2 ^ 32)
        (cfg.SYMBOL_SIZE_BYTES % 2 ^ 16) (numSource cfg data) blockId (w % 2 ^ 16)
        (buildFlags blockId (numSource cfg data) last enc) (out.take w) := by
      rw [hpeq]
      show List.take _ (_ ++ _) = _
      rw [← hlen, List.take_left']
      rfl
    have hpay : p.payload cfg = out.take w := by
      rw [hpeq]
      show List.drop _ (_ ++ _) = _
      rw [← hlen, List.drop_left']
      rfl
    have hcrcp : p.crc cfg = readU32LE (p.header cfg) cfg.CRC_OFF_V2 := by
      rw [hhead, hpeq]
      unfold Packet.crc
      apply readU32LE_congr
      intro j _ hj
      show getByte (_ ++ _) j = _
      exact getByte_append_left _ _ _ (by omega)
    rw [hcrcp, hpay, hhead]
    exact key _ _ _ _ _ _ _ _ _

/-- C1 on the sample instance: the three packets of the one-byte chunk carry the
CRC-32C of their header (checksum field zeroed) followed by their payload. -/
theorem C1_witness :
    sampleConfig.CRC_OFF_V2 + 4 ≤ sampleConfig.HEADER_SIZE_V2 ∧ sampleExternals.CrcIsU32 ∧
    sampleResult = .ok (samplePackets, sampleManifest) ∧ samplePackets.length = 3 ∧
    ∀ p ∈ samplePackets,
      p.crc sampleConfig = crc32c (writeU32LE (p.header sampleConfig) 46 0 ++
        p.payload sampleConfig) :=
  ⟨by decide, sampleExternals_crcIsU32, sampleResult_eq, by decide,
    (C1_stored_crc_is_checksum_of_zeroed_header sampleConfig sampleExternals (by decide)
      sampleExternals_crcIsU32 make_file_id).2 0 [0x41] true false samplePackets sampleManifest
      sampleResult_eq⟩

/-! ## C2: the block ids of a chunk -/

theorem encode_chunk_succeeds {Codec : Type} (cfg : Config) (ext : Externals Codec)
    (hS : ext.Succeeds) (id : FileId) (ci : Nat) (data : List Byte) (last enc : Bool)
    (hsize : data.length ≤ cfg.CHUNK_SIZE_BYTES)
    (hloop : ¬ (firstBlockId cfg data ≤ lastBlockId cfg data ∧
      lastBlockId cfg data = 2 ^ 32 - 1)) :
    ∃ pkts m, encode_chunk cfg ext id ci data last enc = .ok (pkts, m) := by
  rw [encode_chunk_eq]
  have hinit : ¬ ext.wirehair_init_ok = false := by simp [hS.1]
  rw [if_neg hinit, if_neg (Nat.not_lt.mpr hsize)]
  have hc := hS.2.1 (data_to_encode cfg data) ((data_to_encode cfg data).length % 2 ^ 32)
    (cfg.SYMBOL_SIZE_BYTES % 2 ^ 32)
  cases hcodec : ext.wirehair_encoder_create (data_to_encode cfg data)
      ((data_to_encode cfg data).length % 2 ^ 32) (cfg.SYMBOL_SIZE_BYTES % 2 ^ 32) with
  | none => rw [hcodec] at hc; simp at hc
  | some codec =>
    simp only []
    rw [if_neg hloop]
    obtain ⟨pkts, hp⟩ := encode_blocks_succeeds cfg ext hS id codec ci
      ((data_to_encode cfg data).length % 2 ^ 32) (data.length % 2 ^ 32)
      (cfg.SYMBOL_SIZE_BYTES % 2 ^ 16) (numSource cfg data) last enc
      (lastBlockId cfg data + 1 - firstBlockId cfg data) (firstBlockId cfg data)
      (List.replicate cfg.SYMBOL_SIZE_BYTES 0)
    rw [hp]
    exact ⟨_, _, rfl⟩

/-- C2. With `INCLUDE_SOURCE` set and the erasure library succeeding, for a chunk
of at most `CHUNK_SIZE_BYTES` bytes whose block ids fit the `uint32_t` counter
(`N + R < 2^32 - 1`), `encode_chunk` returns `N + R` packets whose `block_id`
fields are `1, 2, ..., N + R` in that order, hence strictly increasing and
pairwise distinct. -/
theorem C2_block_ids_one_to_N_plus_R {Codec : Type} (cfg : Config) (ext : Externals Codec)
    (hL : cfg.LayoutOk) (hI : cfg.INCLUDE_SOURCE = true) (hS : ext.Succeeds) (id : FileId)
    (ci : Nat) (data : List Byte) (last enc : Bool)
    (hsize : data.length ≤ cfg.CHUNK_SIZE_BYTES)
    (hfit : numSource cfg data + cfg.repairCeil (numSource cfg data) < 2 ^ 32 - 1) :
    ∃ pkts m, encode_chunk cfg ext id ci data last enc = .ok (pkts, m) ∧
      pkts.length = numSource cfg data + repairCount cfg data ∧
      pkts.map (Packet.block_id cfg)
        = List.range' 1 (numSource cfg data + repairCount cfg data) ∧
      (pkts.map (Packet.block_id cfg)).Pairwise (· < ·) ∧
      (pkts.map (Packet.block_id cfg)).Nodup := by
  have hR : repairCount cfg data = cfg.repairCeil (numSource cfg data) := by
    unfold repairCount computeRepairCount
    exact Nat.mod_eq_of_lt (by omega)
  have hfirst : firstBlockId cfg data = 1 := by simp [firstBlockId, hI]
  have hlast : lastBlockId cfg data = numSource cfg data + repairCount cfg data := by
    unfold lastBlockId
    exact Nat.mod_eq_of_lt (by omega)
  obtain ⟨pkts, m, hok⟩ := encode_chunk_succeeds cfg ext hS id ci data last enc hsize
    (by omega)
  obtain ⟨codec, _, hlen, hk⟩ := encode_chunk_packets cfg ext id ci data last enc pkts m hok
  have hlen' : pkts.length = numSource cfg data + repairCount cfg data := by
    rw [hlen, hfirst, hlast]; omega
  have hmap : pkts.map (Packet.block_id cfg)
      = List.range' 1 (numSource cfg data + repairCount cfg data) := by
    apply List.ext_getElem (by simp [hlen'])
    intro k h1 h2
    have hkl : k < pkts.length := by simpa using h1
    obtain ⟨bufIn, out, w, _, hpk, hle, _⟩ := hk k hkl
    rw [List.getElem?_eq_getElem hkl] at hpk
    have hpk' := Option.some.inj hpk
    rw [List.getElem_map, hpk', List.getElem_range']
    have hf := (packet_fields cfg hL ext id ci ((data_to_encode cfg data).length % 2 ^ 32)
      (data.length % 2 ^ 32) (cfg.SYMBOL_SIZE_BYTES % 2 ^ 16) (numSource cfg data)
      (firstBlockId cfg data + k) (w % 2 ^ 16)
      (buildFlags (firstBlockId cfg data + k) (numSource cfg data) last enc)
      (out.take w)).2.2.2.2.2.2.1
    rw [hf, hfirst]
    rw [hfirst, hlast] at hle
    rw [Nat.mod_eq_of_lt (by omega)]
    omega
  refine ⟨pkts, m, hok, hlen', hmap, ?_, ?_⟩
  · rw [hmap]; exact List.pairwise_lt_range' 1 _
  · rw [hmap]; exact List.nodup_range' 1 _

/-- C2 on the sample instance: the one-byte chunk gives `N = 2`, `R = 1` and the
block ids `1, 2, 3`. -/
theorem C2_witness :
    sampleConfig.LayoutOk ∧ sampleConfig.INCLUDE_SOURCE = true ∧ sampleExternals.Succeeds ∧
    numSource sampleConfig [0x41] = 2 ∧ repairCount sampleConfig [0x41] = 1 ∧
    ∃ pkts m, encode_chunk sampleConfig sampleExternals make_file_id 0 [0x41] true false
        = .ok (pkts, m) ∧
      pkts.length = numSource sampleConfig [0x41] + repairCount sampleConfig [0x41] ∧
      pkts.map (Packet.block_id sampleConfig)
        = List.range' 1 (numSource sampleConfig [0x41] + repairCount sampleConfig [0x41]) ∧
      (pkts.map (Packet.block_id sampleConfig)).Pairwise (· < ·) ∧
      (pkts.map (Packet.block_id sampleConfig)).Nodup :=
  ⟨by decide, rfl, sampleExternals_succeeds, by decide, by decide,
    C2_block_ids_one_to_N_plus_R sampleConfig sampleExternals (by decide) rfl
      sampleExternals_succeeds make_file_id 0 [0x41] true false (by decide) (by decide)⟩

/-! ## C3: the flags byte -/

theorem buildFlags_eq (blockId numSource : Nat) (isLastChunk encrypted : Bool) :
    buildFlags blockId numSource isLastChunk encrypted =
      ((if blockId > numSource then IsRepairSymbol else 0) |||
        (if isLastChunk then LastChunk else 0)) ||| (if encrypted then Encrypted else 0) := by
  unfold buildFlags None IsRepairSymbol LastChunk Encrypted
  by_cases h : blockId > numSource <;> cases isLastChunk <;> cases encrypted <;>
    simp [h]

theorem buildFlags_lt (blockId numSource : Nat) (isLastChunk encrypted : Bool) :
    buildFlags blockId numSource isLastChunk encrypted < 8 := by
  rw [buildFlags_eq]
  unfold IsRepairSymbol LastChunk Encrypted
  by_cases h : blockId > numSource <;> cases isLastChunk <;> cases encrypted <;>
    simp [h]

/-- C3. For every packet `encode_chunk` returns, the flags byte of the header is
the or of `IsRepairSymbol` (1) when the packet's `block_id` exceeds the source
count `N`, `LastChunk` (2) when `is_last_chunk` and `Encrypted` (4) when
`encrypted`, and of nothing else; so each of the three bits is set exactly under
its condition, `IsRepairSymbol` exactly when `block_id > N`. -/
theorem C3_flags_byte_is_or_of_three_bits {Codec : Type} (cfg : Config)
    (ext : Externals Codec) (hL : cfg.LayoutOk) (id : FileId) (ci : Nat) (data : List Byte)
    (last enc : Bool) (pkts : List Packet) (m : ChunkManifestEntry)
    (h : encode_chunk cfg ext id ci data last enc = .ok (pkts, m))
    (p : Packet) (hp : p ∈ pkts) :
    p.num_source cfg = m.N ∧
    p.flags cfg = (((if p.block_id cfg > m.N then IsRepairSymbol else 0) |||
      (if last then LastChunk else 0)) ||| (if enc then Encrypted else 0)) ∧
    (p.flags cfg &&& IsRepairSymbol ≠ 0 ↔ p.block_id cfg > m.N) ∧
    (p.flags cfg &&& LastChunk ≠ 0 ↔ last = true) ∧
    (p.flags cfg &&& Encrypted ≠ 0 ↔ enc = true) := by
  obtain ⟨_, hm, _⟩ := encode_chunk_inv cfg ext id ci data last enc pkts m h
  obtain ⟨blockId, w, out, _, hle, hpeq, _⟩ :=
    encode_chunk_mem cfg ext id ci data last enc pkts m h p hp
  have hN : m.N = numSource cfg data := by rw [hm]
  have hf := packet_fields cfg hL ext id ci ((data_to_encode cfg data).length % 2 ^ 32)
    (data.length % 2 ^ 32) (cfg.SYMBOL_SIZE_BYTES % 2 ^ 16) (numSource cfg data) blockId
    (w % 2 ^ 16) (buildFlags blockId (numSource cfg data) last enc) (out.take w)
  simp only [← hpeq] at hf
  obtain ⟨hfl, -, -, -, -, hns, hbi, -⟩ := hf
  have hlt := lastBlockId_lt cfg data
  have hnlt := numSource_lt cfg data
  rw [Nat.mod_eq_of_lt (by omega)] at hbi
  rw [Nat.mod_eq_of_lt hnlt] at hns
  rw [Nat.mod_eq_of_lt (by have := buildFlags_lt blockId (numSource cfg data) last enc; omega),
    buildFlags_eq] at hfl
  rw [hfl, hbi, hN, hns]
  refine ⟨rfl, rfl, ?_, ?_, ?_⟩ <;>
    unfold IsRepairSymbol LastChunk Encrypted <;>
    by_cases hb : blockId > numSource cfg data <;> cases last <;> cases enc <;>
    simp [hb] <;> decide

/-- C3 on the sample instance (last chunk, not encrypted): the flags bytes of the
three packets are `2, 2, 3`, the repair bit being set on block 3 only. -/
theorem C3_witness :
    sampleConfig.LayoutOk ∧ sampleResult = .ok (samplePackets, sampleManifest) ∧
    samplePackets.map (Packet.flags sampleConfig) = [2, 2, 3] ∧
    samplePackets.map (Packet.block_id sampleConfig) = [1, 2, 3] ∧ sampleManifest.N = 2 ∧
    ∀ p ∈ samplePackets,
      p.num_source sampleConfig = sampleManifest.N ∧
      p.flags sampleConfig =
        (((if p.block_id sampleConfig > sampleManifest.N then IsRepairSymbol else 0) |||
          (if true then LastChunk else 0)) ||| (if false then Encrypted else 0)) ∧
      (p.flags sampleConfig &&& IsRepairSymbol ≠ 0 ↔ p.block_id sampleConfig > sampleManifest.N) ∧
      (p.flags sampleConfig &&& LastChunk ≠ 0 ↔ true = true) ∧
      (p.flags sampleConfig &&& Encrypted ≠ 0 ↔ false = true) :=
  ⟨by decide, sampleResult_eq, by decide, by decide, by decide, fun p hp =>
    C3_flags_byte_is_or_of_three_bits sampleConfig sampleExternals (by decide) make_file_id 0
      [0x41] true false samplePackets sampleManifest sampleResult_eq p hp⟩

/-! ## C4: `original_size` in an encrypted session -/

/-- The header fields of an arbitrary packet of `encode_chunk`. -/
theorem encode_chunk_mem_fields {Codec : Type} (cfg : Config) (ext : Externals Codec)
    (hL : cfg.LayoutOk) (id : FileId) (ci : Nat) (data : List Byte) (last enc : Bool)
    (pkts : List Packet) (m : ChunkManifestEntry)
    (h : encode_chunk cfg ext id ci data last enc = .ok (pkts, m))
    (p : Packet) (hp : p ∈ pkts) :
    p.chunk_index cfg = ci % 2 ^ 32 ∧
    p.chunk_size cfg = (data_to_encode cfg data).length % 2 ^ 32 ∧
    p.original_size cfg = data.length % 2 ^ 32 ∧
    p.symbol_size cfg = cfg.SYMBOL_SIZE_BYTES % 2 ^ 16 ∧
    p.num_source cfg = numSource cfg data ∧
    firstBlockId cfg data ≤ p.block_id cfg ∧ p.block_id cfg ≤ lastBlockId cfg data := by
  obtain ⟨blockId, w, out, hge, hle, hpeq, _⟩ :=
    encode_chunk_mem cfg ext id ci data last enc pkts m h p hp
  have hf := packet_fields cfg hL ext id ci ((data_to_encode cfg data).length % 2 ^ 32)
    (data.length % 2 ^ 32) (cfg.SYMBOL_SIZE_BYTES % 2 ^ 16) (numSource cfg data) blockId
    (w % 2 ^ 16) (buildFlags blockId (numSource cfg data) last enc) (out.take w)
  simp only [← hpeq, Nat.mod_mod] at hf
  obtain ⟨-, h1, h2, h3, h4, h5, h6, -⟩ := hf
  have hlt := lastBlockId_lt cfg data
  have hnlt := numSource_lt cfg data
  rw [Nat.mod_eq_of_lt (by omega)] at h6
  rw [Nat.mod_eq_of_lt hnlt] at h5
  exact ⟨h1, h2, h3, h4, h5, by omega, by omega⟩

theorem sampleEncryptedResult_eq :
    sampleEncryptedResult = .ok (sampleEncryptedPackets, sampleEncryptedManifest) := by rfl

/-- C4, as stated, fails: on the sample instance the one-byte plaintext chunk
`0x41` is encrypted to a 29-byte blob (12-byte nonce, 1 byte, 16-byte tag), and
the manifest entry and all 17 packets carry `original_size = 29`, not `1`. -/
theorem C4_counterexample :
    sampleEncryptedResult = .ok (sampleEncryptedPackets, sampleEncryptedManifest) ∧
    ([0x41] : List Byte).length = 1 ∧
    sampleEncryptedPackets.length = 17 ∧
    sampleEncryptedManifest.original_size = 29 ∧
    sampleEncryptedPackets.map (Packet.original_size sampleConfig) = List.replicate 17 29 :=
  ⟨sampleEncryptedResult_eq, by decide, by decide, by decide, by decide⟩

/-- C4, amended. In an encrypted encode session (`do_encode` with `encrypt` set)
the `original_size` of the manifest entry and of every packet header of a chunk
is the length of the buffer handed to `encode_chunk`, which is the blob
`encrypt_chunk` returned for the chunk. -/
theorem C4_original_size_is_encrypted_blob_length {Codec : Type} (cfg : Config)
    (ext : Externals Codec) (hL : cfg.LayoutOk) (hC : cfg.CHUNK_SIZE_BYTES < 2 ^ 32)
    (chunks : List (List Byte)) (password : List Byte) (i : Nat) (pkts : List Packet)
    (m : ChunkManifestEntry)
    (h : do_encode_chunk cfg ext chunks true password i = .ok (pkts, m)) :
    m.original_size = (ext.encrypt_chunk (chunks.getD i [])
      (ext.derive_key password make_file_id) make_file_id (i % 2 ^ 32)).length ∧
    ∀ p ∈ pkts, p.original_size cfg = (ext.encrypt_chunk (chunks.getD i [])
      (ext.derive_key password make_file_id) make_file_id (i % 2 ^ 32)).length := by
  unfold do_encode_chunk at h
  simp only [if_true] at h
  obtain ⟨hsize, hm, _⟩ := encode_chunk_inv cfg ext _ _ _ _ _ pkts m h
  constructor
  · rw [hm]
    exact Nat.mod_eq_of_lt (by omega)
  · intro p hp
    rw [(encode_chunk_mem_fields cfg ext hL _ _ _ _ _ pkts m h p hp).2.2.1]
    exact Nat.mod_eq_of_lt (by omega)

/-- C4 (amended) on the sample instance. -/
theorem C4_witness :
    sampleConfig.LayoutOk ∧ sampleConfig.CHUNK_SIZE_BYTES < 2 ^ 32 ∧
    sampleEncryptedResult = .ok (sampleEncryptedPackets, sampleEncryptedManifest) ∧
    (sample_encrypt_chunk [0x41] (sampleExternals.derive_key [0x70, 0x77] make_file_id)
      make_file_id 0).length = 29 ∧
    sampleEncryptedManifest.original_size = (sampleExternals.encrypt_chunk
      (([[0x41]] : List (List Byte)).getD 0 [])
      (sampleExternals.derive_key [0x70, 0x77] make_file_id) make_file_id (0 % 2 ^ 32)).length ∧
    ∀ p ∈ sampleEncryptedPackets, p.original_size sampleConfig = (sampleExternals.encrypt_chunk
      (([[0x41]] : List (List Byte)).getD 0 [])
      (sampleExternals.derive_key [0x70, 0x77] make_file_id) make_file_id (0 % 2 ^ 32)).length :=
  ⟨by decide, by decide, sampleEncryptedResult_eq, by decide,
    C4_original_size_is_encrypted_blob_length sampleConfig sampleExternals (by decide)
      (by decide) [[0x41]] [0x70, 0x77] 0 sampleEncryptedPackets sampleEncryptedManifest
      sampleEncryptedResult_eq⟩

/-! ## C5 to C7: sizes and the source-symbol count -/

theorem data_to_encode_eq (cfg : Config) (hZ : cfg.SizesOk) (data : List Byte) :
    data_to_encode cfg data =
      if data.length < 2 * cfg.SYMBOL_SIZE_BYTES then
        data ++ List.replicate (2 * cfg.SYMBOL_SIZE_BYTES - data.length) 0
      else data := by
  obtain ⟨_, hT, _⟩ := hZ
  unfold data_to_encode
  have h : cfg.SYMBOL_SIZE_BYTES * 2 % 2 ^ 64 = 2 * cfg.SYMBOL_SIZE_BYTES := by omega
  simp only [h]

theorem length_data_to_encode (cfg : Config) (hZ : cfg.SizesOk) (data : List Byte) :
    (data_to_encode cfg data).length = max data.length (2 * cfg.SYMBOL_SIZE_BYTES) := by
  rw [data_to_encode_eq cfg hZ]
  split
  · simp only [List.length_append, List.length_replicate]; omega
  · omega

theorem ceil_div_least (d T : Nat) (hT : 0 < T) :
    d ≤ (d + T - 1) / T * T ∧ ∀ n, d ≤ n * T → (d + T - 1) / T ≤ n := by
  constructor
  · have h1 := Nat.div_add_mod (d + T - 1) T
    have h2 := Nat.mod_lt (d + T - 1) hT
    rw [Nat.mul_comm] at h1
    generalize (d + T - 1) / T * T = x at h1 ⊢
    omega
  · intro n hn
    apply Nat.le_of_lt_succ
    rw [Nat.div_lt_iff_lt_mul hT, Nat.succ_mul]
    omega

theorem ceil_div_eq_ceil (d T : Nat) (hT : 0 < T) :
    (d + T - 1) / T = ⌈(d : ℚ) / (T : ℚ)⌉₊ := by
  have hTq : (0 : ℚ) < (T : ℚ) := by exact_mod_cast hT
  obtain ⟨h1, h2⟩ := ceil_div_least d T hT
  apply le_antisymm
  · apply h2
    have h3 : (d : ℚ) / (T : ℚ) ≤ (⌈(d : ℚ) / (T : ℚ)⌉₊ : ℚ) := Nat.le_ceil _
    rw [div_le_iff₀ hTq] at h3
    exact_mod_cast h3
  · apply Nat.ceil_le.mpr
    rw [div_le_iff₀ hTq]
    exact_mod_cast h1

theorem computeNumSourceSymbols_eq (d T : Nat) (hT : 0 < T) (hd : d + T ≤ 2 ^ 64)
    (hn : (d + T - 1) / T < 2 ^ 32) :
    computeNumSourceSymbols d T = (d + T - 1) / T := by
  unfold computeNumSourceSymbols
  have h : (d + T + (2 ^ 64 - 1)) % 2 ^ 64 = d + T - 1 := by omega
  simp only [h]
  exact Nat.mod_eq_of_lt hn

theorem numSource_eq (cfg : Config) (hZ : cfg.SizesOk) (data : List Byte)
    (hsize : data.length ≤ cfg.CHUNK_SIZE_BYTES) :
    numSource cfg data = ((data_to_encode cfg data).length + cfg.SYMBOL_SIZE_BYTES - 1)
      / cfg.SYMBOL_SIZE_BYTES ∧ (data_to_encode cfg data).length < 2 ^ 32 := by
  have hlen := length_data_to_encode cfg hZ data
  obtain ⟨hT0, hT, hC⟩ := hZ
  have hd : (data_to_encode cfg data).length < 2 ^ 32 := by rw [hlen]; omega
  refine ⟨?_, hd⟩
  unfold numSource
  apply computeNumSourceSymbols_eq _ _ hT0 (by omega)
  have h1 : ((data_to_encode cfg data).length + cfg.SYMBOL_SIZE_BYTES - 1)
      / cfg.SYMBOL_SIZE_BYTES ≤ (data_to_encode cfg data).length := by
    apply (ceil_div_least _ _ hT0).2
    exact Nat.le_mul_of_pos_right _ hT0
  omega

/-- C5. For every packet `encode_chunk` returns (the input then has at most
`CHUNK_SIZE_BYTES` bytes), the header fields satisfy
`original_size ≤ chunk_size ≤ N * T`, with `T` the `symbol_size` field and `N`
the source-symbol-count field; so do the fields of the manifest entry. -/
theorem C5_original_le_chunk_le_N_times_T {Codec : Type} (cfg : Config)
    (ext : Externals Codec) (hL : cfg.LayoutOk) (hZ : cfg.SizesOk) (id : FileId) (ci : Nat)
    (data : List Byte) (last enc : Bool) (pkts : List Packet) (m : ChunkManifestEntry)
    (h : encode_chunk cfg ext id ci data last enc = .ok (pkts, m)) :
    (m.original_size ≤ m.chunk_size ∧ m.chunk_size ≤ m.N * m.T) ∧
    ∀ p ∈ pkts, p.original_size cfg ≤ p.chunk_size cfg ∧
      p.chunk_size cfg ≤ p.num_source cfg * p.symbol_size cfg := by
  obtain ⟨hsize, hm, _⟩ := encode_chunk_inv cfg ext id ci data last enc pkts m h
  obtain ⟨hN, hd⟩ := numSource_eq cfg hZ data hsize
  have hlen := length_data_to_encode cfg hZ data
  have hZ' := hZ
  obtain ⟨hT0, hT, hC⟩ := hZ'
  have hceil := (ceil_div_least (data_to_encode cfg data).length cfg.SYMBOL_SIZE_BYTES hT0).1
  rw [← hN] at hceil
  have e1 : data.length % 2 ^ 32 = data.length := Nat.mod_eq_of_lt (by omega)
  have e2 : (data_to_encode cfg data).length % 2 ^ 32 = (data_to_encode cfg data).length :=
    Nat.mod_eq_of_lt hd
  have e3 : cfg.SYMBOL_SIZE_BYTES % 2 ^ 16 = cfg.SYMBOL_SIZE_BYTES := Nat.mod_eq_of_lt hT
  have hle : data.length ≤ (data_to_encode cfg data).length := by rw [hlen]; omega
  constructor
  · rw [hm]
    simp only [e1, e2, e3]
    exact ⟨hle, hceil⟩
  · intro p hp
    obtain ⟨-, h2, h3, h4, h5, -⟩ := encode_chunk_mem_fields cfg ext hL id ci data last enc
      pkts m h p hp
    rw [h2, h3, h4, h5, e1, e2, e3]
    exact ⟨hle, hceil⟩

/-- C5 on the sample instance: `original_size = 1`, `chunk_size = 4`, `N = 2`,
`T = 2` in every packet. -/
theorem C5_witness :
    sampleConfig.LayoutOk ∧ sampleConfig.SizesOk ∧
    sampleResult = .ok (samplePackets, sampleManifest) ∧
    samplePackets.map (fun p => (p.original_size sampleConfig, p.chunk_size sampleConfig,
      p.num_source sampleConfig, p.symbol_size sampleConfig))
      = [(1, 4, 2, 2), (1, 4, 2, 2), (1, 4, 2, 2)] ∧
    (sampleManifest.original_size ≤ sampleManifest.chunk_size ∧
      sampleManifest.chunk_size ≤ sampleManifest.N * sampleManifest.T) ∧
    ∀ p ∈ samplePackets, p.original_size sampleConfig ≤ p.chunk_size sampleConfig ∧
      p.chunk_size sampleConfig ≤ p.num_source sampleConfig * p.symbol_size sampleConfig :=
  ⟨by decide, by decide, sampleResult_eq, by decide,
    C5_original_le_chunk_le_N_times_T sampleConfig sampleExternals (by decide) (by decide)
      make_file_id 0 [0x41] true false samplePackets sampleManifest sampleResult_eq⟩

/-- C6. The buffer `encode_chunk` hands to the erasure encoder is the input
followed by zero bytes up to exactly `2 * T` bytes when the input is shorter than
`2 * T`, and the input itself otherwise; its length is `max |input| (2 * T)` and the
input is a prefix of it. Whenever `encode_chunk` returns, the codec it used was
created from that buffer, and the `chunk_size` of the manifest entry and of every
packet header is that length. -/
theorem C6_short_chunks_are_zero_padded_to_two_symbols {Codec : Type} (cfg : Config)
    (ext : Externals Codec) (hL : cfg.LayoutOk) (hZ : cfg.SizesOk) (id : FileId) (ci : Nat)
    (data : List Byte) (last enc : Bool) :
    (data.length < 2 * cfg.SYMBOL_SIZE_BYTES →
      data_to_encode cfg data
        = data ++ List.replicate (2 * cfg.SYMBOL_SIZE_BYTES - data.length) 0 ∧
      (data_to_encode cfg data).length = 2 * cfg.SYMBOL_SIZE_BYTES) ∧
    (2 * cfg.SYMBOL_SIZE_BYTES ≤ data.length → data_to_encode cfg data = data) ∧
    (data_to_encode cfg data).length = max data.length (2 * cfg.SYMBOL_SIZE_BYTES) ∧
    data <+: data_to_encode cfg data ∧
    ∀ (pkts : List Packet) (m : ChunkManifestEntry),
      encode_chunk cfg ext id ci data last enc = .ok (pkts, m) →
      (∃ codec, ext.wirehair_encoder_create (data_to_encode cfg data)
          (max data.length (2 * cfg.SYMBOL_SIZE_BYTES)) cfg.SYMBOL_SIZE_BYTES = some codec ∧
        encode_blocks cfg ext id codec ci m.chunk_size m.original_size m.T m.N last enc
          (lastBlockId cfg data + 1 - firstBlockId cfg data) (firstBlockId cfg data)
          (List.replicate cfg.SYMBOL_SIZE_BYTES 0) = .ok pkts) ∧
      m.chunk_size = max data.length (2 * cfg.SYMBOL_SIZE_BYTES) ∧
      ∀ p ∈ pkts, p.chunk_size cfg = max data.length (2 * cfg.SYMBOL_SIZE_BYTES) := by
  have heq := data_to_encode_eq cfg hZ data
  have hlen := length_data_to_encode cfg hZ data
  refine ⟨?_, ?_, hlen, ?_, ?_⟩
  · intro hlt
    rw [if_pos hlt] at heq
    refine ⟨heq, ?_⟩
    rw [hlen]; omega
  · intro hge
    rw [if_neg (by omega)] at heq
    exact heq
  · rw [heq]
    split
    · exact List.prefix_append _ _
    · exact List.prefix_refl _
  · intro pkts m h
    obtain ⟨hsize, hm, codec, hcodec, _, hblocks⟩ :=
      encode_chunk_inv cfg ext id ci data last enc pkts m h
    obtain ⟨_, hd⟩ := numSource_eq cfg hZ data hsize
    have hZ' := hZ
    obtain ⟨hT0, hT, hC⟩ := hZ'
    have e2 : (data_to_encode cfg data).length % 2 ^ 32
        = max data.length (2 * cfg.SYMBOL_SIZE_BYTES) := by
      rw [Nat.mod_eq_of_lt hd, hlen]
    have e3 : cfg.SYMBOL_SIZE_BYTES % 2 ^ 32 = cfg.SYMBOL_SIZE_BYTES :=
      Nat.mod_eq_of_lt (by omega)
    refine ⟨⟨codec, ?_, ?_⟩, ?_, ?_⟩
    · rw [← e2, ← e3]; exact hcodec
    · rw [hm]; exact hblocks
    · rw [hm]; exact e2
    · intro p hp
      rw [(encode_chunk_mem_fields cfg ext hL id ci data last enc pkts m h p hp).2.1]
      exact e2

/-- C6 on the sample instance (`T = 2`): the one-byte chunk `0x41` is encoded as
`0x41 0 0 0` and `chunk_size` is `4`. -/
theorem C6_witness :
    sampleConfig.LayoutOk ∧ sampleConfig.SizesOk ∧
    sampleResult = .ok (samplePackets, sampleManifest) ∧
    data_to_encode sampleConfig [0x41] = [0x41, 0, 0, 0] ∧
    sampleManifest.chunk_size = 4 ∧
    samplePackets.map (Packet.chunk_size sampleConfig) = [4, 4, 4] ∧
    ([0x41] : List Byte) <+: data_to_encode sampleConfig [0x41] ∧
    (data_to_encode sampleConfig [0x41]).length
      = max ([0x41] : List Byte).length (2 * sampleConfig.SYMBOL_SIZE_BYTES) :=
  have h := C6_short_chunks_are_zero_padded_to_two_symbols sampleConfig sampleExternals
    (by decide) (by decide) make_file_id 0 [0x41] true false
  ⟨by decide, by decide, sampleResult_eq, by decide, by decide, by decide, h.2.2.2.1, h.2.2.1⟩

/-- C7. `computeNumSourceSymbols d T` is the ceiling of `d / T`, the least `n`
with `n * T ≥ d`, for every `T > 0` and every `d` whose sum with `T` fits
`std::size_t` and whose ceiling fits `uint32_t`; this covers every
`d ≤ max CHUNK_SIZE_BYTES (2 * T)`. Hence for every chunk `encode_chunk`
encodes, the `N` of the manifest entry and of every packet header is the ceiling
of `chunk_size / T`, the least integer with `N * T ≥ chunk_size`. -/
theorem C7_num_source_is_ceiling {Codec : Type} (cfg : Config) (ext : Externals Codec)
    (hL : cfg.LayoutOk) (hZ : cfg.SizesOk) (id : FileId) :
    (∀ d T : Nat, 0 < T → d + T ≤ 2 ^ 64 → ⌈(d : ℚ) / (T : ℚ)⌉₊ < 2 ^ 32 →
      computeNumSourceSymbols d T = ⌈(d : ℚ) / (T : ℚ)⌉₊ ∧
      d ≤ computeNumSourceSymbols d T * T ∧
      ∀ n, d ≤ n * T → computeNumSourceSymbols d T ≤ n) ∧
    (∀ d : Nat, d ≤ max cfg.CHUNK_SIZE_BYTES (2 * cfg.SYMBOL_SIZE_BYTES) →
      computeNumSourceSymbols d cfg.SYMBOL_SIZE_BYTES
        = ⌈(d : ℚ) / (cfg.SYMBOL_SIZE_BYTES : ℚ)⌉₊) ∧
    ∀ (ci : Nat) (data : List Byte) (last enc : Bool) (pkts : List Packet)
        (m : ChunkManifestEntry),
      encode_chunk cfg ext id ci data last enc = .ok (pkts, m) →
      (m.N = ⌈(m.chunk_size : ℚ) / (m.T : ℚ)⌉₊ ∧ m.chunk_size ≤ m.N * m.T ∧
        ∀ n, m.chunk_size ≤ n * m.T → m.N ≤ n) ∧
      ∀ p ∈ pkts,
        p.num_source cfg = ⌈(p.chunk_size cfg : ℚ) / (p.symbol_size cfg : ℚ)⌉₊ ∧
        p.chunk_size cfg ≤ p.num_source cfg * p.symbol_size cfg ∧
        ∀ n, p.chunk_size cfg ≤ n * p.symbol_size cfg → p.num_source cfg ≤ n := by
  have gen : ∀ d T : Nat, 0 < T → d + T ≤ 2 ^ 64 → ⌈(d : ℚ) / (T : ℚ)⌉₊ < 2 ^ 32 →
      computeNumSourceSymbols d T = ⌈(d : ℚ) / (T : ℚ)⌉₊ ∧
      d ≤ computeNumSourceSymbols d T * T ∧
      ∀ n, d ≤ n * T → computeNumSourceSymbols d T ≤ n := by
    intro d T hT hd hn
    rw [← ceil_div_eq_ceil d T hT] at hn
    rw [computeNumSourceSymbols_eq d T hT hd hn, ← ceil_div_eq_ceil d T hT]
    exact ⟨rfl, ceil_div_least d T hT⟩
  have hZ' := hZ
  obtain ⟨hT0, hT, hC⟩ := hZ'
  have small : ∀ d : Nat, d ≤ max cfg.CHUNK_SIZE_BYTES (2 * cfg.SYMBOL_SIZE_BYTES) →
      d + cfg.SYMBOL_SIZE_BYTES ≤ 2 ^ 64 ∧
      ⌈(d : ℚ) / (cfg.SYMBOL_SIZE_BYTES : ℚ)⌉₊ < 2 ^ 32 := by
    intro d hd
    refine ⟨by omega, ?_⟩
    rw [← ceil_div_eq_ceil d _ hT0]
    have := (ceil_div_least d cfg.SYMBOL_SIZE_BYTES hT0).2 d (Nat.le_mul_of_pos_right _ hT0)
    omega
  refine ⟨gen, fun d hd => (gen d _ hT0 (small d hd).1 (small d hd).2).1, ?_⟩
  intro ci data last enc pkts m h
  obtain ⟨hsize, hm, _⟩ := encode_chunk_inv cfg ext id ci data last enc pkts m h
  have hlen := length_data_to_encode cfg hZ data
  have hdle : (data_to_encode cfg data).length
      ≤ max cfg.CHUNK_SIZE_BYTES (2 * cfg.SYMBOL_SIZE_BYTES) := by
    rw [hlen]; omega
  have e2 : (data_to_encode cfg data).length % 2 ^ 32 = (data_to_encode cfg data).length :=
    Nat.mod_eq_of_lt (by omega)
  have e3 : cfg.SYMBOL_SIZE_BYTES % 2 ^ 16 = cfg.SYMBOL_SIZE_BYTES := Nat.mod_eq_of_lt hT
  have key := gen (data_to_encode cfg data).length cfg.SYMBOL_SIZE_BYTES hT0
    (small _ hdle).1 (small _ hdle).2
  constructor
  · rw [hm]
    simp only [e2, e3]
    exact key
  · intro p hp
    obtain ⟨-, h2, -, h4, h5, -⟩ := encode_chunk_mem_fields cfg ext hL id ci data last enc
      pkts m h p hp
    rw [h2, h4, h5, e2, e3]
    exact key

/-- C7 on the sample instance: `chunk_size = 4`, `T = 2`, `N = 2`. -/
theorem C7_witness :
    sampleConfig.LayoutOk ∧ sampleConfig.SizesOk ∧
    sampleResult = .ok (samplePackets, sampleManifest) ∧
    (sampleManifest.chunk_size, sampleManifest.T, sampleManifest.N) = (4, 2, 2) ∧
    computeNumSourceSymbols 5 2 = 3 ∧
    sampleManifest.N = ⌈(sampleManifest.chunk_size : ℚ) / (sampleManifest.T : ℚ)⌉₊ ∧
    ∀ p ∈ samplePackets,
      p.num_source sampleConfig
        = ⌈(p.chunk_size sampleConfig : ℚ) / (p.symbol_size sampleConfig : ℚ)⌉₊ ∧
      p.chunk_size sampleConfig ≤ p.num_source sampleConfig * p.symbol_size sampleConfig ∧
      ∀ n, p.chunk_size sampleConfig ≤ n * p.symbol_size sampleConfig →
        p.num_source sampleConfig ≤ n :=
  have h := (C7_num_source_is_ceiling sampleConfig sampleExternals (by decide) (by decide)
    make_file_id).2.2 0 [0x41] true false samplePackets sampleManifest sampleResult_eq
  ⟨by decide, by decide, sampleResult_eq, by decide, by decide, h.1.1, h.2⟩

/-! ## C8: the shape of a packet -/

/-- C8. Provided the erasure library writes inside the `T`-byte buffer it is
given, every packet `encode_chunk` returns is the `HEADER_SIZE_V2`-byte header
`create_packet_header` returned for its block, immediately followed by the
bytes `wirehair_encode` wrote for that block; its length is
`HEADER_SIZE_V2 + payload_length`, and the `payload_length` field is the length
of the payload, at most `T`. -/
theorem C8_packet_is_header_then_payload {Codec : Type} (cfg : Config) (ext : Externals Codec)
    (hL : cfg.LayoutOk) (hZ : cfg.SizesOk) (hW : ext.WritesWithinBuffer) (id : FileId)
    (ci : Nat) (data : List Byte) (last enc : Bool) (pkts : List Packet)
    (m : ChunkManifestEntry) (h : encode_chunk cfg ext id ci data last enc = .ok (pkts, m)) :
    ∃ codec, ext.wirehair_encoder_create (data_to_encode cfg data) m.chunk_size
        cfg.SYMBOL_SIZE_BYTES = some codec ∧
      ∀ p ∈ pkts,
        p.bytes = p.header cfg ++ p.payload cfg ∧
        (p.header cfg).length = cfg.HEADER_SIZE_V2 ∧
        p.bytes.length = cfg.HEADER_SIZE_V2 + p.payload_length cfg ∧
        p.payload_length cfg = (p.payload cfg).length ∧
        (p.payload cfg).length ≤ cfg.SYMBOL_SIZE_BYTES ∧
        p.symbol_size cfg = cfg.SYMBOL_SIZE_BYTES ∧
        ∃ (bufIn out : List Byte) (w : Nat), bufIn.length = cfg.SYMBOL_SIZE_BYTES ∧
          ext.wirehair_encode codec (p.block_id cfg) bufIn cfg.SYMBOL_SIZE_BYTES
            = some (out, w) ∧
          p.payload cfg = out.take w ∧ (p.payload cfg).length = w ∧
          p.header cfg = create_packet_header cfg ext id ci m.chunk_size m.original_size m.T
            m.N (p.block_id cfg) w (buildFlags (p.block_id cfg) m.N last enc)
            (p.payload cfg) := by
  obtain ⟨hsize, hm, _⟩ := encode_chunk_inv cfg ext id ci data last enc pkts m h
  obtain ⟨codec, hcodec, _, hk⟩ := encode_chunk_packets cfg ext id ci data last enc pkts m h
  obtain ⟨_, hd⟩ := numSource_eq cfg hZ data hsize
  have hZ' := hZ
  obtain ⟨hT0, hT, hC⟩ := hZ'
  have e2 : (data_to_encode cfg data).length % 2 ^ 32 = m.chunk_size := by rw [hm]
  have e3 : cfg.SYMBOL_SIZE_BYTES % 2 ^ 32 = cfg.SYMBOL_SIZE_BYTES :=
    Nat.mod_eq_of_lt (by omega)
  have e4 : cfg.SYMBOL_SIZE_BYTES % 2 ^ 16 = cfg.SYMBOL_SIZE_BYTES := Nat.mod_eq_of_lt hT
  have hmT : m.T = cfg.SYMBOL_SIZE_BYTES := by rw [hm]; exact e4
  have hmN : m.N = numSource cfg data := by rw [hm]
  have hmO : m.original_size = data.length % 2 ^ 32 := by rw [hm]
  refine ⟨codec, by rw [← e2, ← e3]; exact hcodec, ?_⟩
  intro p hp
  obtain ⟨k, hkl, hpk⟩ := List.getElem_of_mem hp
  obtain ⟨bufIn, out, w, hcall, hget, hle, hbuf⟩ := hk k hkl
  rw [List.getElem?_eq_getElem hkl, hpk] at hget
  have hpeq := Option.some.inj hget
  have hbl := hbuf hW
  rw [e3] at hcall
  obtain ⟨hout, hw⟩ := hW _ _ _ _ _ _ hcall
  rw [hbl] at hout
  have hw16 : w % 2 ^ 16 = w := Nat.mod_eq_of_lt (by omega)
  have hf := packet_fields cfg hL ext id ci ((data_to_encode cfg data).length % 2 ^ 32)
    (data.length % 2 ^ 32) (cfg.SYMBOL_SIZE_BYTES % 2 ^ 16) (numSource cfg data)
    (firstBlockId cfg data + k) (w % 2 ^ 16)
    (buildFlags (firstBlockId cfg data + k) (numSource cfg data) last enc) (out.take w)
  simp only [← hpeq, Nat.mod_mod] at hf
  obtain ⟨-, -, -, -, hss, -, hbi, hpl, hhead, hpay⟩ := hf
  have hlt := lastBlockId_lt cfg data
  rw [Nat.mod_eq_of_lt (by omega)] at hbi
  have htake : (out.take w).length = w := by
    rw [List.length_take]; omega
  have hheadlen : (p.header cfg).length = cfg.HEADER_SIZE_V2 := by
    rw [hhead]; exact length_create_packet_header _ _ _ _ _ _ _ _ _ _ _ _
  have hsplit : p.bytes = p.header cfg ++ p.payload cfg :=
    (List.take_append_drop cfg.HEADER_SIZE_V2 p.bytes).symm
  have hpl' : p.payload_length cfg = (p.payload cfg).length := by
    rw [hpl, hw16, hpay, htake]
  refine ⟨hsplit, hheadlen, ?_, hpl', ?_, ?_, bufIn, out, w, hbl, ?_, hpay, ?_, ?_⟩
  · rw [hpl']
    conv_lhs => rw [hsplit]
    rw [List.length_append, hheadlen]
  · rw [hpay, htake]; exact hw
  · rw [hss, e4]
  · rw [hbi]; exact hcall
  · rw [hpay, htake]
  · rw [hhead, hbi, e2, hmT, hmN, hmO, hpay, hw16, e4]

/-- C8 on the sample instance (`HEADER_SIZE_V2 = 50`, `T = 2`): three packets of
52 bytes with `payload_length = 2` and the payloads `0x41 0`, `0 0`, `0 0`. -/
theorem C8_witness :
    sampleConfig.LayoutOk ∧ sampleConfig.SizesOk ∧ sampleExternals.WritesWithinBuffer ∧
    sampleResult = .ok (samplePackets, sampleManifest) ∧
    samplePackets.map (fun p => (p.bytes.length, p.payload_length sampleConfig,
      p.payload sampleConfig)) = [(52, 2, [0x41, 0]), (52, 2, [0, 0]), (52, 2, [0, 0])] ∧
    ∃ codec, sampleExternals.wirehair_encoder_create (data_to_encode sampleConfig [0x41])
        sampleManifest.chunk_size sampleConfig.SYMBOL_SIZE_BYTES = some codec ∧
      ∀ p ∈ samplePackets,
        p.bytes = p.header sampleConfig ++ p.payload sampleConfig ∧
        (p.header sampleConfig).length = sampleConfig.HEADER_SIZE_V2 ∧
        p.bytes.length = sampleConfig.HEADER_SIZE_V2 + p.payload_length sampleConfig ∧
        p.payload_length sampleConfig = (p.payload sampleConfig).length ∧
        (p.payload sampleConfig).length ≤ sampleConfig.SYMBOL_SIZE_BYTES ∧
        p.symbol_size sampleConfig = sampleConfig.SYMBOL_SIZE_BYTES ∧
        ∃ (bufIn out : List Byte) (w : Nat), bufIn.length = sampleConfig.SYMBOL_SIZE_BYTES ∧
          sampleExternals.wirehair_encode codec (p.block_id sampleConfig) bufIn
            sampleConfig.SYMBOL_SIZE_BYTES = some (out, w) ∧
          p.payload sampleConfig = out.take w ∧ (p.payload sampleConfig).length = w ∧
          p.header sampleConfig = create_packet_header sampleConfig sampleExternals
            make_file_id 0 sampleManifest.chunk_size sampleManifest.original_size
            sampleManifest.T sampleManifest.N (p.block_id sampleConfig) w
            (buildFlags (p.block_id sampleConfig) sampleManifest.N true false)
            (p.payload sampleConfig) :=
  ⟨by decide, by decide, sampleExternals_writesWithinBuffer, sampleResult_eq, by decide,
    C8_packet_is_header_then_payload sampleConfig sampleExternals (by decide) (by decide)
      sampleExternals_writesWithinBuffer make_file_id 0 [0x41] true false samplePackets
      sampleManifest sampleResult_eq⟩

/-! ## C9: the `LastChunk` flag across the chunks of a file -/

/-- The `LastChunk` bit of an arbitrary packet of `encode_chunk`. -/
theorem encode_chunk_mem_last_flag {Codec : Type} (cfg : Config) (ext : Externals Codec)
    (hL : cfg.LayoutOk) (id : FileId) (ci : Nat) (data : List Byte) (last enc : Bool)
    (pkts : List Packet) (m : ChunkManifestEntry)
    (h : encode_chunk cfg ext id ci data last enc = .ok (pkts, m))
    (p : Packet) (hp : p ∈ pkts) :
    p.flags cfg &&& LastChunk ≠ 0 ↔ last = true := by
  obtain ⟨blockId, w, out, _, _, hpeq, _⟩ :=
    encode_chunk_mem cfg ext id ci data last enc pkts m h p hp
  have hf := (packet_fields cfg hL ext id ci ((data_to_encode cfg data).length % 2 ^ 32)
    (data.length % 2 ^ 32) (cfg.SYMBOL_SIZE_BYTES % 2 ^ 16) (numSource cfg data) blockId
    (w % 2 ^ 16) (buildFlags blockId (numSource cfg data) last enc) (out.take w)).1
  simp only [← hpeq] at hf
  have hlt8 := buildFlags_lt blockId (numSource cfg data) last enc
  rw [hf, Nat.mod_eq_of_lt (by omega), buildFlags_eq]
  unfold IsRepairSymbol LastChunk Encrypted
  split <;> cases last <;> cases enc <;> simp <;> decide

theorem static_cast_int_of_lt (n : Nat) (h : n < 2 ^ 31) : static_cast_int n = (n : Int) := by
  unfold static_cast_int
  have h1 : n % 2 ^ 32 = n := Nat.mod_eq_of_lt (by omega)
  rw [h1, if_pos h]

/-- C9, as stated, fails beyond the range of `int`. For a file of `2^32 + 1`
chunks `static_cast<int>(num_chunks)` is `1`: the loop runs for `i = 0` only,
with `is_last` set, and every packet of chunk `0` carries `LastChunk` although
chunk `0` is not the final chunk. For a file of `2^31` chunks the cast is
negative: the loop runs for no index, the final chunk included. -/
theorem C9_counterexample :
    (1 ≤ chunksBeyondInt.length ∧ (0 : Nat) ≠ chunksBeyondInt.length - 1 ∧
      do_encode_runs chunksBeyondInt 0 ∧ do_encode_is_last chunksBeyondInt 0 = true ∧
      do_encode_chunk sampleConfig sampleExternals chunksBeyondInt false [] 0
        = .ok (samplePackets, sampleManifest) ∧
      samplePackets.length = 3 ∧
      ∀ p ∈ samplePackets, p.chunk_index sampleConfig = 0 ∧
        p.flags sampleConfig &&& LastChunk ≠ 0) ∧
    (1 ≤ chunksIntMin.length ∧ ¬ do_encode_runs chunksIntMin (chunksIntMin.length - 1) ∧
      all_chunk_packets sampleConfig sampleExternals chunksIntMin false []
        (chunksIntMin.length - 1) = .ok []) := by
  have hlen : chunksBeyondInt.length = 2 ^ 32 + 1 := List.length_replicate _ _
  have hlen' : chunksIntMin.length = 2 ^ 31 := List.length_replicate _ _
  have hget : chunksBeyondInt.getD 0 [] = [0x41] := rfl
  have hcast : static_cast_int (2 ^ 32 + 1) = 1 := by decide
  have hcast' : static_cast_int (2 ^ 31) = -2147483648 := by decide
  have hlast : do_encode_is_last chunksBeyondInt 0 = true := by
    unfold do_encode_is_last
    rw [hlen, hcast]
    decide
  have hruns : ¬ do_encode_runs chunksIntMin (chunksIntMin.length - 1) := by
    unfold do_encode_runs
    rw [hlen', hcast']
    decide
  refine ⟨⟨by rw [hlen]; decide, by rw [hlen]; decide, ?_, hlast, ?_, by decide, by decide⟩,
    by rw [hlen']; decide, hruns, ?_⟩
  · unfold do_encode_runs
    rw [hlen, hcast]
    decide
  · unfold do_encode_chunk
    simp only [hget, hlast]
    exact sampleResult_eq
  · unfold all_chunk_packets
    rw [if_neg hruns]

/-- C9, amended. For every file split into `num_chunks` chunks with
`1 ≤ num_chunks < 2^31`, the chunk loop of `do_encode` runs exactly for the
indices `i < num_chunks`, calls `encode_chunk` with `is_last` set exactly for
`i = num_chunks - 1`, and the packets it returns for chunk `i` carry the chunk
index `i` and have `LastChunk` set exactly when `i = num_chunks - 1`. -/
theorem C9_last_chunk_flag_marks_final_chunk {Codec : Type} (cfg : Config)
    (ext : Externals Codec) (hL : cfg.LayoutOk) (chunks : List (List Byte)) (encrypt : Bool)
    (password : List Byte) (h1 : 1 ≤ chunks.length) (h2 : chunks.length < 2 ^ 31) (i : Nat) :
    (do_encode_runs chunks i ↔ i < chunks.length) ∧
    (do_encode_is_last chunks i = true ↔ i = chunks.length - 1) ∧
    ∀ (pkts : List Packet) (m : ChunkManifestEntry), i < chunks.length →
      do_encode_chunk cfg ext chunks encrypt password i = .ok (pkts, m) →
      ∀ p ∈ pkts, p.chunk_index cfg = i ∧
        (p.flags cfg &&& LastChunk ≠ 0 ↔ i = chunks.length - 1) := by
  have hcast := static_cast_int_of_lt chunks.length h2
  have hlast : do_encode_is_last chunks i = true ↔ i = chunks.length - 1 := by
    unfold do_encode_is_last
    rw [hcast, decide_eq_true_iff]
    constructor <;> intro h <;> omega
  refine ⟨?_, hlast, ?_⟩
  · unfold do_encode_runs
    rw [hcast]
    constructor <;> intro h <;> omega
  · intro pkts m hi h p hp
    unfold do_encode_chunk at h
    simp only [] at h
    refine ⟨?_, ?_⟩
    · rw [(encode_chunk_mem_fields cfg ext hL _ _ _ _ _ pkts m h p hp).1]
      omega
    · rw [encode_chunk_mem_last_flag cfg ext hL _ _ _ _ _ pkts m h p hp]
      exact hlast

/-- C9 (amended) on the sample instance: a file of one chunk, whose three packets
all carry `LastChunk`. -/
theorem C9_witness :
    sampleConfig.LayoutOk ∧ 1 ≤ ([[0x41]] : List (List Byte)).length ∧
    ([[0x41]] : List (List Byte)).length < 2 ^ 31 ∧
    do_encode_chunk sampleConfig sampleExternals [[0x41]] false [] 0
      = .ok (samplePackets, sampleManifest) ∧
    samplePackets.map (Packet.flags sampleConfig) = [2, 2, 3] ∧
    (do_encode_runs [[0x41]] 0 ↔ 0 < ([[0x41]] : List (List Byte)).length) ∧
    (do_encode_is_last [[0x41]] 0 = true ↔ 0 = ([[0x41]] : List (List Byte)).length - 1) ∧
    ∀ p ∈ samplePackets, p.chunk_index sampleConfig = 0 ∧
      (p.flags sampleConfig &&& LastChunk ≠ 0 ↔ 0 = ([[0x41]] : List (List Byte)).length - 1) :=
  have h := C9_last_chunk_flag_marks_final_chunk sampleConfig sampleExternals (by decide)
    [[0x41]] false [] (by decide) (by decide) 0
  ⟨by decide, by decide, by decide, sampleResult_eq, by decide, h.1, h.2.1,
    h.2.2 samplePackets sampleManifest (by decide) sampleResult_eq⟩

/-! ## C10: `expected_chunks` -/

theorem scan_packet_eq (cfg : Config) (st : ScanState) (x : List Byte) :
    scan_packet cfg st x =
      { total_extracted := st.total_extracted + 1
        max_chunk_index :=
          if carries_header cfg x then max st.max_chunk_index (blob_chunk_index cfg x)
          else st.max_chunk_index
        found_last_chunk :=
          st.found_last_chunk || (carries_header cfg x && carries_last_chunk cfg x)
        last_chunk_index :=
          if carries_header cfg x && carries_last_chunk cfg x then blob_chunk_index cfg x
          else st.last_chunk_index } := by
  unfold scan_packet carries_header carries_last_chunk blob_chunk_index
  by_cases h1 : x.length ≥ cfg.HEADER_SIZE
  · by_cases h2 : (getByte x cfg.FLAGS_OFF).val &&& LastChunk ≠ 0
    · by_cases h3 : readU32LE x cfg.CHUNK_INDEX_OFF > st.max_chunk_index
      · simp [h1, h2, h3, Nat.max_eq_right (Nat.le_of_lt h3)]
      · simp [h1, h2, h3, Nat.max_eq_left (Nat.le_of_not_lt h3)]
    · by_cases h3 : readU32LE x cfg.CHUNK_INDEX_OFF > st.max_chunk_index
      · simp [h1, h2, h3, Nat.max_eq_right (Nat.le_of_lt h3)]
      · simp [h1, h2, h3, Nat.max_eq_left (Nat.le_of_not_lt h3)]
  · simp [h1]

theorem scan_foldl (cfg : Config) (l : List (List Byte)) :
    ∀ st : ScanState,
      (l.foldl (scan_packet cfg) st).total_extracted = st.total_extracted + l.length ∧
      (l.foldl (scan_packet cfg) st).max_chunk_index =
        max st.max_chunk_index
          (((l.filter (carries_header cfg)).map (blob_chunk_index cfg)).foldr max 0) ∧
      (l.foldl (scan_packet cfg) st).found_last_chunk =
        (st.found_last_chunk ||
          (((l.filter (carries_header cfg)).filter (carries_last_chunk cfg)).getLast?).isSome) ∧
      (l.foldl (scan_packet cfg) st).last_chunk_index =
        (((((l.filter (carries_header cfg)).filter (carries_last_chunk cfg)).getLast?).map
          (blob_chunk_index cfg)).getD st.last_chunk_index) := by
  induction l with
  | nil => intro st; simp
  | cons x rest ih =>
    intro st
    obtain ⟨h1, h2, h3, h4⟩ := ih (scan_packet cfg st x)
    rw [List.foldl_cons, h1, h2, h3, h4, scan_packet_eq]
    simp only []
    refine ⟨by simp only [List.length_cons]; omega, ?_, ?_, ?_⟩
    · cases hh : carries_header cfg x
      · simp [List.filter_cons, hh]
      · simp [List.filter_cons, hh, Nat.max_assoc]
    · cases hh : carries_header cfg x
      · simp [List.filter_cons, hh]
      · cases hl : carries_last_chunk cfg x
        · simp [List.filter_cons, hh, hl]
        · simp [List.filter_cons, hh, hl, List.getLast?_cons]
    · cases hh : carries_header cfg x
      · simp [List.filter_cons, hh]
      · cases hl : carries_last_chunk cfg x
        · simp [List.filter_cons, hh, hl]
        · simp only [List.filter_cons, hh, hl, List.getLast?_cons, Bool.and_self, if_true]
          cases (List.filter (carries_last_chunk cfg)
            (List.filter (carries_header cfg) rest)).getLast? <;> simp

theorem readU32LE_lt (b : List Byte) (off : Nat) : readU32LE b off < 2 ^ 32 := by
  unfold readU32LE
  have h0 := (getByte b off).isLt
  have h1 := (getByte b (off + 1)).isLt
  have h2 := (getByte b (off + 2)).isLt
  have h3 := (getByte b (off + 3)).isLt
  omega

theorem le_foldr_max (l : List Nat) : ∀ x ∈ l, x ≤ l.foldr max 0 := by
  induction l with
  | nil => intro x hx; simp at hx
  | cons a rest ih =>
    intro x hx
    simp only [List.foldr_cons]
    rcases List.mem_cons.mp hx with h | h
    · subst h; exact Nat.le_max_left _ _
    · exact Nat.le_trans (ih x h) (Nat.le_max_right _ _)

theorem foldr_max_mem (l : List Nat) (hne : l ≠ []) : l.foldr max 0 ∈ l := by
  induction l with
  | nil => exact absurd rfl hne
  | cons a rest ih =>
    simp only [List.foldr_cons]
    by_cases hr : rest = []
    · subst hr; simp
    · rcases Nat.le_total a (rest.foldr max 0) with h | h
      · rw [Nat.max_eq_right h]; exact List.mem_cons_of_mem _ (ih hr)
      · rw [Nat.max_eq_left h]; exact List.mem_cons_self _ _

theorem expected_chunks_eq (cfg : Config) (frames : List (List (List Byte)))
    (hne : frames.flatten ≠ []) :
    expected_chunks cfg frames =
      some (match spec_last_chunk_index cfg frames with
        | some last => (last + 1) % 2 ^ 32
        | none => (max_chunk_index_seen cfg frames + 1) % 2 ^ 32) := by
  unfold expected_chunks scan_frames
  rw [← List.foldl_flatten]
  obtain ⟨h1, h2, h3, h4⟩ := scan_foldl cfg frames.flatten ScanState.init
  simp only []
  have hpos : 0 < frames.flatten.length := List.length_pos.mpr hne
  rw [if_neg (by rw [h1]; simp only [ScanState.init]; omega), h2, h3, h4]
  unfold spec_last_chunk_index max_chunk_index_seen received_headers
  cases ((List.filter (carries_last_chunk cfg)
    (List.filter (carries_header cfg) frames.flatten)).getLast?) <;> simp [ScanState.init]

/-- C10, as stated, fails at the top of the `uint32_t` range: for a single
received blob of 50 bytes `0xFF` (long enough for a header, `LastChunk` bit set,
`chunk_index = 2^32 - 1`) `do_decode` computes `expected_chunks = 0`, not
`last_chunk_index + 1 = 2^32`. -/
theorem C10_counterexample :
    carries_header sampleConfig blobAllOnes = true ∧
    carries_last_chunk sampleConfig blobAllOnes = true ∧
    blob_chunk_index sampleConfig blobAllOnes = 4294967295 ∧
    spec_last_chunk_index sampleConfig [[blobAllOnes]] = some 4294967295 ∧
    expected_chunks sampleConfig [[blobAllOnes]] = some 0 ∧
    expected_chunks sampleConfig [[blobAllOnes]] ≠ some (4294967295 + 1) := by
  refine ⟨by decide, by decide, by decide, by decide, by decide, by decide⟩

/-- C10, amended. In `do_decode`, for every non-empty sequence of received packet
blobs, `expected_chunks` is `(last_chunk_index + 1) mod 2^32` if some received
blob long enough to carry a header has the `LastChunk` bit set, and
`(max_chunk_index_seen + 1) mod 2^32` otherwise; `last_chunk_index` is the
`chunk_index` of the latest such blob, `max_chunk_index_seen` the maximum
`chunk_index` over the blobs long enough to carry a header (`0` when there is
none). The reduction changes the value only when the index is `2^32 - 1`. -/
theorem C10_expected_chunks_from_last_chunk_or_max (cfg : Config)
    (frames : List (List (List Byte))) (hne : frames.flatten ≠ []) :
    expected_chunks cfg frames =
      some (match spec_last_chunk_index cfg frames with
        | some last => (last + 1) % 2 ^ 32
        | none => (max_chunk_index_seen cfg frames + 1) % 2 ^ 32) ∧
    (spec_last_chunk_index cfg frames = none ↔
      ∀ b ∈ received_headers cfg frames, carries_last_chunk cfg b = false) ∧
    (∀ last, spec_last_chunk_index cfg frames = some last →
      (∃ b ∈ received_headers cfg frames, carries_last_chunk cfg b = true ∧
        blob_chunk_index cfg b = last) ∧
      (last ≠ 2 ^ 32 - 1 → expected_chunks cfg frames = some (last + 1))) ∧
    (∀ b ∈ received_headers cfg frames,
      blob_chunk_index cfg b ≤ max_chunk_index_seen cfg frames) ∧
    (received_headers cfg frames = [] → max_chunk_index_seen cfg frames = 0) ∧
    (received_headers cfg frames ≠ [] →
      ∃ b ∈ received_headers cfg frames,
        blob_chunk_index cfg b = max_chunk_index_seen cfg frames) ∧
    (spec_last_chunk_index cfg frames = none → max_chunk_index_seen cfg frames ≠ 2 ^ 32 - 1 →
      expected_chunks cfg frames = some (max_chunk_index_seen cfg frames + 1)) := by
  have heq := expected_chunks_eq cfg frames hne
  have hmaxle : ∀ b ∈ received_headers cfg frames,
      blob_chunk_index cfg b ≤ max_chunk_index_seen cfg frames := by
    intro b hb
    unfold max_chunk_index_seen
    exact le_foldr_max _ _ (List.mem_map_of_mem _ hb)
  have hmaxmem : received_headers cfg frames ≠ [] →
      ∃ b ∈ received_headers cfg frames,
        blob_chunk_index cfg b = max_chunk_index_seen cfg frames := by
    intro hne'
    have := foldr_max_mem ((received_headers cfg frames).map (blob_chunk_index cfg))
      (by simpa using hne')
    obtain ⟨b, hb, hbe⟩ := List.mem_map.mp this
    exact ⟨b, hb, hbe⟩
  have hsome : ∀ last, spec_last_chunk_index cfg frames = some last →
      ∃ b ∈ received_headers cfg frames, carries_last_chunk cfg b = true ∧
        blob_chunk_index cfg b = last := by
    intro last hl
    unfold spec_last_chunk_index at hl
    obtain ⟨b, hb, hbe⟩ := Option.map_eq_some'.mp hl
    have hmem := List.mem_of_getLast?_eq_some hb
    obtain ⟨hm1, hm2⟩ := List.mem_filter.mp hmem
    exact ⟨b, hm1, hm2, hbe⟩
  refine ⟨heq, ?_, ?_, hmaxle, ?_, hmaxmem, ?_⟩
  · unfold spec_last_chunk_index
    rw [Option.map_eq_none', List.getLast?_eq_none_iff, List.filter_eq_nil_iff]
    simp
  · intro last hl
    refine ⟨hsome last hl, ?_⟩
    intro hlast
    obtain ⟨b, _, _, hbe⟩ := hsome last hl
    have hlt := readU32LE_lt b cfg.CHUNK_INDEX_OFF
    unfold blob_chunk_index at hbe
    rw [heq, hl]
    simp only []
    rw [Nat.mod_eq_of_lt (by omega)]
  · intro hnil
    unfold max_chunk_index_seen
    rw [hnil]
    rfl
  · intro hnone hmax
    rw [heq, hnone]
    simp only []
    by_cases hr : received_headers cfg frames = []
    · have : max_chunk_index_seen cfg frames = 0 := by
        unfold max_chunk_index_seen; rw [hr]; rfl
      rw [this]
      rfl
    · obtain ⟨b, _, hbe⟩ := hmaxmem hr
      have hlt := readU32LE_lt b cfg.CHUNK_INDEX_OFF
      unfold blob_chunk_index at hbe
      rw [Nat.mod_eq_of_lt (by omega)]

/-- C10 (amended) on the sample instance: the three packets of the one-chunk file
arrive in one frame; all carry `LastChunk` and chunk index `0`, and
`expected_chunks` is `1`. -/
theorem C10_witness :
    [samplePackets.map Packet.bytes].flatten ≠ [] ∧
    spec_last_chunk_index sampleConfig [samplePackets.map Packet.bytes] = some 0 ∧
    expected_chunks sampleConfig [samplePackets.map Packet.bytes] = some 1 ∧
    expected_chunks sampleConfig [samplePackets.map Packet.bytes] =
      some (match spec_last_chunk_index sampleConfig [samplePackets.map Packet.bytes] with
        | some last => (last + 1) % 2 ^ 32
        | none => (max_chunk_index_seen sampleConfig [samplePackets.map Packet.bytes] + 1)
            % 2 ^ 32) :=
  ⟨by decide, by decide, by decide,
    (C10_expected_chunks_from_last_chunk_or_max sampleConfig [samplePackets.map Packet.bytes]
      (by decide)).1⟩

/-! ## C11: usage errors of `main` -/

/-- The argument loop of `main` against the items of the command line: it fails
on an unknown or incomplete argument, and otherwise `encrypt` is set exactly when
it was set before or `--encrypt` is among the items, and each string is either
the one held before or a value the command line supplies for its option. -/
theorem parse_args_spec :
    ∀ (n : Nat) (args : List String) (st : ParsedArgs), args.length ≤ n →
      ((∃ a, CliItem.unknown_or_incomplete a ∈ cli_items args) → parse_args args st = none) ∧
      ∀ st', parse_args args st = some st' →
        (st'.encrypt = true ↔ st.encrypt = true ∨ CliItem.encrypt ∈ cli_items args) ∧
        (st'.password = st.password ∨ CliItem.password st'.password ∈ cli_items args) ∧
        (st'.input_path = st.input_path ∨ CliItem.input st'.input_path ∈ cli_items args) ∧
        (st'.output_path = st.output_path ∨
          CliItem.output st'.output_path ∈ cli_items args) := by
  intro n
  induction n with
  | zero =>
    intro args st hlen
    have : args = [] := List.length_eq_zero.mp (Nat.le_zero.mp hlen)
    subst this
    simp [parse_args, cli_items]
  | succ n ih =>
    intro args st hlen
    match args, hlen with
    | [], _ => simp [parse_args, cli_items]
    | [arg], _ =>
      by_cases he : arg = "--encrypt" ∨ arg = "-e"
      · simp only [parse_args, cli_items, if_pos he]
        refine ⟨by simp, ?_⟩
        intro st' hst
        simp only [Option.some.injEq] at hst
        subst hst
        simp
      · simp [parse_args, cli_items, if_neg he]
    | arg :: value :: rest, hlen =>
      have hrest : rest.length ≤ n := by simp only [List.length_cons] at hlen; omega
      have hvrest : (value :: rest).length ≤ n := by
        simp only [List.length_cons] at hlen ⊢; omega
      by_cases hi : arg = "--input" ∨ arg = "-i"
      · obtain ⟨h1, h2⟩ := ih rest { st with input_path := value } hrest
        simp only [parse_args, cli_items, if_pos hi]
        refine ⟨fun ⟨a, ha⟩ => h1 ⟨a, by simpa using ha⟩, ?_⟩
        intro st' hst
        obtain ⟨e1, e2, e3, e4⟩ := h2 st' hst
        simp only [List.mem_cons, reduceCtorEq, false_or, CliItem.input.injEq] at e1 e2 e3 e4 ⊢
        refine ⟨e1, e2, ?_, e4⟩
        rcases e3 with e3 | e3
        · exact Or.inr (Or.inl e3)
        · exact Or.inr (Or.inr e3)
      by_cases ho : arg = "--output" ∨ arg = "-o"
      · obtain ⟨h1, h2⟩ := ih rest { st with output_path := value } hrest
        simp only [parse_args, cli_items, if_neg hi, if_pos ho]
        refine ⟨fun ⟨a, ha⟩ => h1 ⟨a, by simpa using ha⟩, ?_⟩
        intro st' hst
        obtain ⟨e1, e2, e3, e4⟩ := h2 st' hst
        simp only [List.mem_cons, reduceCtorEq, false_or, CliItem.output.injEq] at e1 e2 e3 e4 ⊢
        refine ⟨e1, e2, e3, ?_⟩
        rcases e4 with e4 | e4
        · exact Or.inr (Or.inl e4)
        · exact Or.inr (Or.inr e4)
      by_cases he : arg = "--encrypt" ∨ arg = "-e"
      · obtain ⟨h1, h2⟩ := ih (value :: rest) { st with encrypt := true } hvrest
        simp only [parse_args, cli_items, if_neg hi, if_neg ho, if_pos he]
        refine ⟨fun ⟨a, ha⟩ => h1 ⟨a, by simpa using ha⟩, ?_⟩
        intro st' hst
        obtain ⟨e1, e2, e3, e4⟩ := h2 st' hst
        simp only [List.mem_cons, reduceCtorEq, false_or, true_or, or_true, iff_true]
          at e1 e2 e3 e4 ⊢
        exact ⟨e1, e2, e3, e4⟩
      by_cases hp : arg = "--password" ∨ arg = "-p"
      · obtain ⟨h1, h2⟩ := ih rest { st with password := value } hrest
        simp only [parse_args, cli_items, if_neg hi, if_neg ho, if_neg he, if_pos hp]
        refine ⟨fun ⟨a, ha⟩ => h1 ⟨a, by simpa using ha⟩, ?_⟩
        intro st' hst
        obtain ⟨e1, e2, e3, e4⟩ := h2 st' hst
        simp only [List.mem_cons, reduceCtorEq, false_or, CliItem.password.injEq]
          at e1 e2 e3 e4 ⊢
        refine ⟨e1, ?_, e3, e4⟩
        rcases e2 with e2 | e2
        · exact Or.inr (Or.inl e2)
        · exact Or.inr (Or.inr e2)
      · simp [parse_args, cli_items, if_neg hi, if_neg ho, if_neg he, if_neg hp]

/-- An option that takes a value takes the next argument whatever it is: in
`encode -i -e -o out` the `-e` is the input path, `encrypt` stays unset and
`do_encode` is called. -/
theorem main_value_taken_by_option :
    cli_items ["-i", "-e", "-o", "out"] = [CliItem.input "-e", CliItem.output "out"] ∧
    main ["yt", "encode", "-i", "-e", "-o", "out"]
      = MainResult.calls_do_encode "-e" "out" false "" := by
  constructor <;> decide

/-- C11. Reading the command line after the command as a sequence of options
with their values: if `--encrypt` (or `-e`) is among them and no `--password`
(or `-p`) supplies a non-empty value, `main` returns `1` without calling
`do_encode` or `do_decode`; so it does when an argument is unknown or an option
lacks its value, when no `--input` (or no `--output`) supplies a non-empty value,
and when the command is missing or is neither `encode` nor `decode`. -/
theorem C11_usage_errors_return_1_without_a_call (argv : List String) :
    (CliItem.encrypt ∈ cli_items (argv.drop 2) →
      (∀ pwd, CliItem.password pwd ∈ cli_items (argv.drop 2) → pwd = "") →
      main argv = MainResult.returns 1) ∧
    ((∃ arg, CliItem.unknown_or_incomplete arg ∈ cli_items (argv.drop 2)) →
      main argv = MainResult.returns 1) ∧
    ((∀ file, CliItem.input file ∈ cli_items (argv.drop 2) → file = "") →
      main argv = MainResult.returns 1) ∧
    ((∀ file, CliItem.output file ∈ cli_items (argv.drop 2) → file = "") →
      main argv = MainResult.returns 1) ∧
    (¬ valid_command argv → main argv = MainResult.returns 1) := by
  obtain ⟨hbad, hok⟩ := parse_args_spec (argv.drop 2).length (argv.drop 2) ParsedArgs.init
    (Nat.le_refl _)
  have hmain : ∀ P : Prop, (∀ st, parse_args (argv.drop 2) ParsedArgs.init = some st →
      ¬ (st.input_path = "" ∨ st.output_path = "") →
      ¬ (st.encrypt = true ∧ st.password = "") → P) →
      (main argv = MainResult.returns 1 ∨ P) := by
    intro P hP
    unfold main
    by_cases h1 : argv.length < 2
    · simp [h1]
    rw [if_neg h1]
    simp only []
    by_cases h2 : argv.getD 1 "" ≠ "encode" ∧ argv.getD 1 "" ≠ "decode"
    · rw [if_pos h2]; exact Or.inl rfl
    rw [if_neg h2]
    cases hp : parse_args (argv.drop 2) ParsedArgs.init with
    | none => exact Or.inl rfl
    | some st =>
      simp only []
      by_cases h3 : st.input_path = "" ∨ st.output_path = ""
      · rw [if_pos h3]; exact Or.inl rfl
      by_cases h4 : st.encrypt = true ∧ st.password = ""
      · rw [if_neg h3, if_pos h4]; exact Or.inl rfl
      exact Or.inr (hP st hp h3 h4)
  refine ⟨?_, ?_, ?_, ?_, ?_⟩
  · intro henc hpwd
    refine (hmain False ?_).resolve_right id
    intro st hp _ h4
    obtain ⟨e1, e2, _, _⟩ := hok st hp
    apply h4
    refine ⟨e1.mpr (Or.inr henc), ?_⟩
    rcases e2 with e2 | e2
    · rw [e2]; rfl
    · exact hpwd _ e2
  · intro hex
    refine (hmain False ?_).resolve_right id
    intro st hp _ _
    rw [hbad hex] at hp
    exact Option.noConfusion hp
  · intro hin
    refine (hmain False ?_).resolve_right id
    intro st hp h3 _
    obtain ⟨_, _, e3, _⟩ := hok st hp
    apply h3
    left
    rcases e3 with e3 | e3
    · rw [e3]; rfl
    · exact hin _ e3
  · intro hout
    refine (hmain False ?_).resolve_right id
    intro st hp h3 _
    obtain ⟨_, _, _, e4⟩ := hok st hp
    apply h3
    right
    rcases e4 with e4 | e4
    · rw [e4]; rfl
    · exact hout _ e4
  · intro hv
    unfold valid_command at hv
    unfold main
    by_cases h1 : argv.length < 2
    · simp [h1]
    rw [if_neg h1]
    simp only []
    have h2 : argv.getD 1 "" ≠ "encode" ∧ argv.getD 1 "" ≠ "decode" := by
      constructor
      · intro h; exact hv ⟨by omega, Or.inl h⟩
      · intro h; exact hv ⟨by omega, Or.inr h⟩
    rw [if_pos h2]

/-- C11 on concrete command lines: `--encrypt` without a password, with an empty
password, an unknown argument, an option without its value and a missing
`--output` all return `1`; a complete command line calls `do_encode`. -/
theorem C11_witness :
    main ["yt", "encode", "--input", "a", "--output", "b", "--encrypt"]
      = MainResult.returns 1 ∧
    main ["yt", "decode", "-e", "-i", "a", "-o", "b", "-p", ""] = MainResult.returns 1 ∧
    main ["yt", "encode", "-i", "a", "-o", "b", "--fast"] = MainResult.returns 1 ∧
    main ["yt", "encode", "-i", "a", "-o"] = MainResult.returns 1 ∧
    main ["yt", "encode", "-i", "a"] = MainResult.returns 1 ∧
    main ["yt", "encode", "-i", "a", "-o", "b", "-e", "-p", "hunter2"]
      = MainResult.calls_do_encode "a" "b" true "hunter2" ∧
    main ["yt", "decode", "-i", "a", "-o", "b"] = MainResult.calls_do_decode "a" "b" "" :=
  ⟨(C11_usage_errors_return_1_without_a_call
      ["yt", "encode", "--input", "a", "--output", "b", "--encrypt"]).1
      (by decide) (fun pwd h => by
        have e : cli_items (List.drop 2
            ["yt", "encode", "--input", "a", "--output", "b", "--encrypt"])
            = [CliItem.input "a", CliItem.output "b", CliItem.encrypt] := by decide
        rw [e] at h
        simp at h),
    (C11_usage_errors_return_1_without_a_call
      ["yt", "decode", "-e", "-i", "a", "-o", "b", "-p", ""]).1 (by decide) (fun pwd h => by
        have e : cli_items (List.drop 2 ["yt", "decode", "-e", "-i", "a", "-o", "b", "-p", ""])
            = [CliItem.encrypt, CliItem.input "a", CliItem.output "b", CliItem.password ""] := by
          decide
        rw [e] at h
        simpa using h),
    (C11_usage_errors_return_1_without_a_call
      ["yt", "encode", "-i", "a", "-o", "b", "--fast"]).2.1 ⟨"--fast", by decide⟩,
    (C11_usage_errors_return_1_without_a_call
      ["yt", "encode", "-i", "a", "-o"]).2.1 ⟨"-o", by decide⟩,
    (C11_usage_errors_return_1_without_a_call
      ["yt", "encode", "-i", "a"]).2.2.2.1 (fun file h => by
        have e : cli_items (List.drop 2 ["yt", "encode", "-i", "a"]) = [CliItem.input "a"] := by
          decide
        rw [e] at h
        simp at h),
    by decide, by decide⟩

end YtMediaStorage
